import Mathlib

/-!
Verification of `depths_pipeline_v10_strict.py` (brand/spec enrichment pipeline).

The Python source is shallowly embedded here.  Strings are modelled as
`List Char`; a missing value (`numpy.nan` / pandas NA) is `Option.none`.
Each compiled regular expression of the source is embedded as a hand-compiled
matcher `... _at : (pre s : List Char) → Option Nat` that, given the reversed
prefix `pre` (the characters before the current position, nearest first) and
the remaining input `s`, returns the length of the match the Python engine
would produce at this position (with its backtracking priority), or `none`.
`reFindAll` then reproduces `re.finditer`: scan left to right, take each
leftmost match, continue after it (non-overlapping).

Modelling notes, faithful to the character repertoire the pipeline handles
(ASCII plus Hangul syllables and the symbols `®`, `×`):
* `\w` (word characters, for `\b`) is modelled as ASCII alphanumerics, `_`,
  and Hangul syllables (U+AC00–U+D7A3).
* `str.lower()` / `re.IGNORECASE` lower-case only ASCII letters; Hangul and
  symbols are unaffected, as in Python.
* `str.strip()` and `\s` use the standard whitespace characters.
* In `extract_units_and_composed` the Python source accumulates unit tokens
  in a `set` and returns `list(dict.fromkeys(units))`; the iteration order of
  a Python string set is unspecified (hash-dependent).  We model insertion
  order of first occurrence; no claim below depends on the relative order of
  two distinct unit tokens of one call.
-/

/-- Strings of the pipeline are lists of characters; `none` models NaN. -/
abbrev Str := List Char

/-- Whitespace characters of Python `str.strip` / regex `\s` (ASCII range). -/
def isPySpace (c : Char) : Bool :=
  c = ' ' || c = '\t' || c = '\n' || c = '\r' || c = '\x0b' || c = '\x0c'

/-- ASCII decimal digit, regex `\d` (on the ASCII repertoire). -/
def isAsciiDigit (c : Char) : Bool := '0' ≤ c && c ≤ '9'

/-- ASCII letter, regex `[A-Za-z]`. -/
def isAsciiAlpha (c : Char) : Bool := ('a' ≤ c && c ≤ 'z') || ('A' ≤ c && c ≤ 'Z')

/-- ASCII alphanumeric, regex `[A-Za-z0-9]`. -/
def isAsciiAlnum (c : Char) : Bool := isAsciiAlpha c || isAsciiDigit c

/-- Hangul syllable block U+AC00–U+D7A3 (regex `[가-힣]`, and word chars). -/
def isHangulSyl (c : Char) : Bool := 0xAC00 ≤ c.toNat && c.toNat ≤ 0xD7A3

/-- Word character for `\b`, on the repertoire handled by the pipeline. -/
def isWordChar (c : Char) : Bool := isAsciiAlnum c || c = '_' || isHangulSyl c

/-- ASCII-only lower casing (Python `str.lower` on this repertoire), written
as an explicit table over the 26 upper-case letters. -/
def lowerChar (c : Char) : Char :=
  match c with
  | 'A' => 'a' | 'B' => 'b' | 'C' => 'c' | 'D' => 'd' | 'E' => 'e' | 'F' => 'f'
  | 'G' => 'g' | 'H' => 'h' | 'I' => 'i' | 'J' => 'j' | 'K' => 'k' | 'L' => 'l'
  | 'M' => 'm' | 'N' => 'n' | 'O' => 'o' | 'P' => 'p' | 'Q' => 'q' | 'R' => 'r'
  | 'S' => 's' | 'T' => 't' | 'U' => 'u' | 'V' => 'v' | 'W' => 'w' | 'X' => 'x'
  | 'Y' => 'y' | 'Z' => 'z' | c => c

/-- Python `s.lower()`. -/
def strLower (s : Str) : Str := s.map lowerChar

/-- Python `s.strip()`. -/
def pyStrip (s : Str) : Str :=
  ((s.dropWhile isPySpace).reverse.dropWhile isPySpace).reverse

/-- Python `s.split(sep)` for a one-character separator: all segments, empty
segments included (`"".split("/") == [""]`). -/
def splitOnChar (sep : Char) : Str → List Str
  | [] => [[]]
  | c :: cs =>
    if c = sep then [] :: splitOnChar sep cs
    else
      match splitOnChar sep cs with
      | [] => [[c]]
      | t :: ts => (c :: t) :: ts

/-- Python `"/".join(l)`. -/
def joinSlash : List Str → Str
  | [] => []
  | [t] => t
  | t :: ts => t ++ '/' :: joinSlash ts

/-- Python `s.split()` (split on whitespace runs, no empty parts); fuel is the
length of the string, enough for the run-by-run recursion. -/
def pySplitWsAux : Nat → Str → List Str
  | 0, _ => []
  | fuel + 1, s =>
    let s1 := s.dropWhile isPySpace
    match s1 with
    | [] => []
    | _ :: _ =>
      let w := s1.takeWhile (fun c => !isPySpace c)
      w :: pySplitWsAux fuel (s1.drop w.length)

/-- Python `s.split()`. -/
def pySplitWs (s : Str) : List Str := pySplitWsAux s.length s

/-- Python `s.replace("×", "x")` (single-character replacement). -/
def xToX (s : Str) : Str := s.map (fun c => if c = '×' then 'x' else c)

/-- Order-preserving de-duplication (the `seen`-set pattern of the source,
comparison on the token itself). -/
def dedupKeepFirstAux (seen : List Str) : List Str → List Str
  | [] => []
  | x :: xs =>
    if seen.contains x then dedupKeepFirstAux seen xs
    else x :: dedupKeepFirstAux (x :: seen) xs

/-- Order-preserving de-duplication on the tokens themselves. -/
def dedupKeepFirst : List Str → List Str := dedupKeepFirstAux []

/-- Order-preserving de-duplication comparing lower-cased tokens but keeping
the original-case first occurrence (`cl = c.lower(); if cl not in seen`). -/
def dedupByLowerAux (seen : List Str) : List Str → List Str
  | [] => []
  | x :: xs =>
    if seen.contains (strLower x) then dedupByLowerAux seen xs
    else x :: dedupByLowerAux (strLower x :: seen) xs

/-- Case-insensitive order-preserving de-duplication. -/
def dedupByLower : List Str → List Str := dedupByLowerAux []

/-! ## Regex building blocks -/

/-- Word boundary `\b` before a word character: the previous character (head
of the reversed prefix) is absent or not a word character. -/
def startBoundary (pre : Str) : Bool :=
  match pre.head? with
  | none => true
  | some c => !isWordChar c

/-- Word boundary `\b` after a word character: the next character is absent or
not a word character. -/
def endBoundary (s : Str) : Bool :=
  match s.head? with
  | none => true
  | some c => !isWordChar c

/-- Case-insensitive literal: drop `pat` from the front of `s`, case folded,
returning the remainder. -/
def dropCI : Str → Str → Option Str
  | [], s => some s
  | _ :: _, [] => none
  | p :: ps, c :: cs => if lowerChar c = lowerChar p then dropCI ps cs else none

/-- Lookbehind `(?<!no\.)` (case-insensitive): the three previous characters
are `n`, `o`, `.` (reversed prefix starts with `.`, `o`, `n`). -/
def afterNoDot (pre : Str) : Bool :=
  match pre with
  | '.' :: c2 :: c3 :: _ => lowerChar c2 = 'o' && lowerChar c3 = 'n'
  | _ => false

/-- Literal suffix (CI) followed by `\b` (the suffix ends in a word char):
consumed length, or `none`. -/
def sufB (suf : Str) (s : Str) : Option Nat :=
  match dropCI suf s with
  | some rest => if endBoundary rest then some suf.length else none
  | none => none

/-- Regex `\s?SUF\b`.  The greedy `\s?` tries the space first; if a space was
consumed the no-space alternative would have to match the suffix at the space
itself, which is impossible (no suffix starts with whitespace), so no further
backtracking is needed. -/
def spaceSufB (suf : Str) (s : Str) : Option Nat :=
  match s with
  | [] => none
  | c :: t =>
    if isPySpace c then (sufB suf t).map (· + 1)
    else sufB suf s

/-- Regex `\d+(?:\.\d+)?` with the engine's committed-greedy result: a shorter
digit run leaves a digit as the next character, which can never match the
continuations used after this fragment (`.`, `\s`, `x`, unit letters), so the
maximal runs are the only candidates; likewise if a well-formed fraction is
present the skip-alternative would resume at `.`, which no continuation
matches.  Returns (consumed length, rest). -/
def numLen (s : Str) : Option (Nat × Str) :=
  let ds := s.takeWhile isAsciiDigit
  if ds = [] then none
  else
    match s.drop ds.length with
    | '.' :: t =>
      let d2 := t.takeWhile isAsciiDigit
      if d2 = [] then some (ds.length, s.drop ds.length)
      else some (ds.length + 1 + d2.length, t.drop d2.length)
    | r1 => some (ds.length, r1)

/-- Greedy `\s?` where the continuation is a required non-space literal:
(consumed, rest). -/
def optSpace (s : Str) : Nat × Str :=
  match s with
  | c :: t => if isPySpace c then (1, t) else (0, s)
  | [] => (0, [])

/-- Alternation `(?:mm|cm|m)` in the engine's order (committed: when `mm`
matches but the sequel fails, the `m` alternative resumes at the second `m`,
which none of the sequels (`\s`, `x`, `\b` before a word char) accepts). -/
def unitAlt (s : Str) : Option Nat :=
  match dropCI ['m', 'm'] s with
  | some _ => some 2
  | none =>
    match dropCI ['c', 'm'] s with
    | some _ => some 2
    | none => (dropCI ['m'] s).map (fun _ => 1)

/-- Alternation `(?:mm|cm|m)\b`. -/
def unitAltB (s : Str) : Option Nat :=
  match unitAlt s with
  | some n => if endBoundary (s.drop n) then some n else none
  | none => none

/-! ## The compiled patterns of the source -/

/-- Regex `\b\d+\.\d+\s?SUF\b` (`M_DEC`, `CM_DEC`, `MM_DEC`). -/
def decUnitAt (suf : Str) (pre s : Str) : Option Nat :=
  if !startBoundary pre then none
  else
    let ds := s.takeWhile isAsciiDigit
    if ds = [] then none
    else
      match s.drop ds.length with
      | '.' :: t =>
        let d2 := t.takeWhile isAsciiDigit
        if d2 = [] then none
        else (spaceSufB suf (t.drop d2.length)).map (· + (ds.length + 1 + d2.length))
      | _ => none

/-- Regex `(?<!\.)\b\d+\s?SUF\b` (`M_INT`, `CM_INT`, `MM_INT`). -/
def intUnitAt (suf : Str) (pre s : Str) : Option Nat :=
  if pre.head? = some '.' then none
  else if !startBoundary pre then none
  else
    let ds := s.takeWhile isAsciiDigit
    if ds = [] then none
    else (spaceSufB suf (s.drop ds.length)).map (· + ds.length)

/-- Regex `\b\d+(?:\.\d+)?\s?SUF\b` (`G`, `ML`, each arm of `LIT`). -/
def optFracUnitAt (suf : Str) (pre s : Str) : Option Nat :=
  if !startBoundary pre then none
  else
    match numLen s with
    | none => none
    | some (n1, r1) => (spaceSufB suf r1).map (· + n1)

/-- `M_DEC  = \b\d+\.\d+\s?m\b`. -/
def M_DEC_at (pre s : Str) : Option Nat := decUnitAt ['m'] pre s

/-- `CM_DEC = \b\d+\.\d+\s?cm\b`. -/
def CM_DEC_at (pre s : Str) : Option Nat := decUnitAt ['c', 'm'] pre s

/-- `MM_DEC = \b\d+\.\d+\s?mm\b`. -/
def MM_DEC_at (pre s : Str) : Option Nat := decUnitAt ['m', 'm'] pre s

/-- `M_INT  = (?<!\.)\b\d+\s?m\b`. -/
def M_INT_at (pre s : Str) : Option Nat := intUnitAt ['m'] pre s

/-- `CM_INT = (?<!\.)\b\d+\s?cm\b`. -/
def CM_INT_at (pre s : Str) : Option Nat := intUnitAt ['c', 'm'] pre s

/-- `MM_INT = (?<!\.)\b\d+\s?mm\b`. -/
def MM_INT_at (pre s : Str) : Option Nat := intUnitAt ['m', 'm'] pre s

/-- `G  = \b\d+(?:\.\d+)?\s?g\b`. -/
def G_at (pre s : Str) : Option Nat := optFracUnitAt ['g'] pre s

/-- `ML = \b\d+(?:\.\d+)?\s?ml\b`. -/
def ML_at (pre s : Str) : Option Nat := optFracUnitAt ['m', 'l'] pre s

/-- `LIT = \b\d+(?:\.\d+)?\s?l\b|\b\d+(?:\.\d+)?\s?리터\b` (first arm first). -/
def LIT_at (pre s : Str) : Option Nat :=
  match optFracUnitAt ['l'] pre s with
  | some n => some n
  | none => optFracUnitAt ['리', '터'] pre s

/-- `COMPOSED_UNIT_UNIT = \b\d+(?:\.\d+)?\s?(?:mm|cm|m)\s?x\s?\d+(?:\.\d+)?\s?(?:mm|cm|m)\b`. -/
def COMPOSED_UNIT_UNIT_at (pre s : Str) : Option Nat :=
  if !startBoundary pre then none
  else
    match numLen s with
    | none => none
    | some (n1, r1) =>
      let (sp1, r2) := optSpace r1
      match unitAlt r2 with
      | none => none
      | some u1 =>
        let r3 := r2.drop u1
        let (sp2, r4) := optSpace r3
        match r4 with
        | c :: r5 =>
          if lowerChar c = 'x' then
            let (sp3, r6) := optSpace r5
            match numLen r6 with
            | none => none
            | some (n2, r7) =>
              let (sp4, r8) := optSpace r7
              (unitAltB r8).map (· + (n1 + sp1 + u1 + sp2 + 1 + sp3 + n2 + sp4))
          else none
        | [] => none

/-- `COMPOSED_M_MM = \b\d+(?:\.\d+)?\s?m\s?x\s?\d+(?:\.\d+)?\s?mm\b`. -/
def COMPOSED_M_MM_at (pre s : Str) : Option Nat :=
  if !startBoundary pre then none
  else
    match numLen s with
    | none => none
    | some (n1, r1) =>
      let (sp1, r2) := optSpace r1
      match r2 with
      | m1 :: r3 =>
        if lowerChar m1 = 'm' then
          let (sp2, r4) := optSpace r3
          match r4 with
          | c :: r5 =>
            if lowerChar c = 'x' then
              let (sp3, r6) := optSpace r5
              match numLen r6 with
              | none => none
              | some (n2, r7) =>
                let (sp4, r8) := optSpace r7
                match dropCI ['m', 'm'] r8 with
                | some r9 =>
                  if endBoundary r9 then
                    some (n1 + sp1 + 1 + sp2 + 1 + sp3 + n2 + sp4 + 2)
                  else none
                | none => none
            else none
          | [] => none
        else none
      | [] => none

/-- `COMPOSED_GENERIC = \b\d+(?:\.\d+)?\s?x\s?\d+(?:\.\d+)?\s?(?:mm|cm|m)\b`. -/
def COMPOSED_GENERIC_at (pre s : Str) : Option Nat :=
  if !startBoundary pre then none
  else
    match numLen s with
    | none => none
    | some (n1, r1) =>
      let (sp1, r2) := optSpace r1
      match r2 with
      | c :: r3 =>
        if lowerChar c = 'x' then
          let (sp2, r4) := optSpace r3
          match numLen r4 with
          | none => none
          | some (n2, r5) =>
            let (sp3, r6) := optSpace r5
            (unitAltB r6).map (· + (n1 + sp1 + 1 + sp2 + n2 + sp3))
        else none
      | [] => none

/-- `PAPER` word alternatives `letter|legal` (CI) with the `(?![A-Za-z0-9])`
lookahead; `letter` is attempted before `legal`, as in the pattern. -/
def paperWordAt (s : Str) : Option Nat :=
  match dropCI ['l', 'e', 't', 't', 'e', 'r'] s with
  | some rest =>
    if (rest.head?.map isAsciiAlnum).getD false then
      match dropCI ['l', 'e', 'g', 'a', 'l'] s with
      | some rest2 =>
        if (rest2.head?.map isAsciiAlnum).getD false then none else some 5
      | none => none
    else some 6
  | none =>
    match dropCI ['l', 'e', 'g', 'a', 'l'] s with
    | some rest2 =>
      if (rest2.head?.map isAsciiAlnum).getD false then none else some 5
    | none => none

/-- `PAPER = (?<![A-Za-z0-9])(a[0-5]|b[0-5]|letter|legal)(?![A-Za-z0-9])`
(CI); the lookarounds test ASCII alphanumerics only, so a designator glued
after Hangul or `_` is accepted. -/
def PAPER_at (pre s : Str) : Option Nat :=
  if (pre.head?.map isAsciiAlnum).getD false then none
  else
    match s with
    | c :: d :: rest =>
      if (lowerChar c = 'a' || lowerChar c = 'b') && ('0' ≤ d && d ≤ '5') &&
          !((rest.head?.map isAsciiAlnum).getD false) then some 2
      else paperWordAt s
    | _ => paperWordAt s

/-- Counted-unit alternation `(?:매|권|묶음|롤|팩|박스)`; the six alternatives
start with six distinct characters, so first-character dispatch is exact. -/
def kuAlt : Str → Option Nat
  | '매' :: _ => some 1
  | '권' :: _ => some 1
  | '묶' :: '음' :: _ => some 2
  | '롤' :: _ => some 1
  | '팩' :: _ => some 1
  | '박' :: '스' :: _ => some 2
  | _ => none

/-- Tail `\s?(?:매|권|묶음|롤|팩|박스)?\b` of `QTY`, entered just after the
second digit run (so the character before this position is a digit).  The
backtracking order of the engine is: space+unit, space+empty, empty+unit,
empty+empty; `\b` after a unit or a digit needs a non-word successor, `\b`
after a consumed space needs a word successor. -/
def qtyTail (s : Str) : Option Nat :=
  match s with
  | [] => some 0
  | c :: t =>
    if isPySpace c then
      match kuAlt t with
      | some n =>
        if endBoundary (t.drop n) then some (1 + n)
        else if (t.head?.map isWordChar).getD false then some 1
        else some 0
      | none =>
        if (t.head?.map isWordChar).getD false then some 1 else some 0
    else
      match kuAlt s with
      | some n => if endBoundary (s.drop n) then some n else none
      | none => if isWordChar c then none else some 0

/-- `QTY = \b\d+\s?(?:매|권|묶음|롤|팩|박스)\s?[x×]\s?\d+\s?(?:매|권|묶음|롤|팩|박스)?\b`. -/
def QTY_at (pre s : Str) : Option Nat :=
  if !startBoundary pre then none
  else
    let ds := s.takeWhile isAsciiDigit
    if ds = [] then none
    else
      let r1 := s.drop ds.length
      let (sp1, r2) := optSpace r1
      match kuAlt r2 with
      | none => none
      | some k1 =>
        let r3 := r2.drop k1
        let (sp2, r4) := optSpace r3
        match r4 with
        | c :: r5 =>
          if c = 'x' || c = 'X' || c = '×' then
            let (sp3, r6) := optSpace r5
            let d2 := r6.takeWhile isAsciiDigit
            if d2 = [] then none
            else
              (qtyTail (r6.drop d2.length)).map
                (· + (ds.length + sp1 + k1 + sp2 + 1 + sp3 + d2.length))
          else none
        | [] => none

/-- Cumulative lengths after each greedy `[-_][A-Za-z0-9]+` segment of
`HYCODE`, starting from consumed length `acc`; fuel bounds the recursion. -/
def hySegsAux : Nat → Str → Nat → List Nat
  | 0, _, _ => []
  | fuel + 1, s, acc =>
    match s with
    | c :: rest =>
      if c = '-' || c = '_' then
        let run := rest.takeWhile isAsciiAlnum
        if run = [] then []
        else
          (acc + 1 + run.length) ::
            hySegsAux fuel (rest.drop run.length) (acc + 1 + run.length)
      else []
    | [] => []

/-- `HYCODE = (?<!no\.)\b(?=[A-Za-z0-9]*[A-Za-z])(?=[A-Za-z0-9]*\d)`
`[A-Za-z0-9]+(?:[-_][A-Za-z0-9]+)+\b`.  The two lookaheads can only inspect
the leading alphanumeric run (the `*` cannot cross `-`/`_`), so that first
segment must contain both a letter and a digit.  The greedy segment list
backtracks segment by segment until the trailing `\b` holds (a match can only
end at the end of a full segment run; ending inside a run puts an
alphanumeric, hence word, character next). -/
def HYCODE_at (pre s : Str) : Option Nat :=
  if afterNoDot pre then none
  else if !startBoundary pre then none
  else
    let run0 := s.takeWhile isAsciiAlnum
    if run0 = [] then none
    else if !(run0.any isAsciiAlpha && run0.any isAsciiDigit) then none
    else
      let ends := hySegsAux s.length (s.drop run0.length) run0.length
      ends.reverse.find? (fun e => endBoundary (s.drop e))

/-- `ALNUM_CODE = (?<!no\.)\b(?=[A-Za-z0-9]*[A-Za-z])(?=[A-Za-z0-9]*\d)`
`[A-Za-z0-9]{3,}\b`: a maximal alphanumeric run of length at least three with
a letter and a digit (shorter greedy retries end inside the run, before a
word character, so the maximal run is the only candidate). -/
def ALNUM_CODE_at (pre s : Str) : Option Nat :=
  if afterNoDot pre then none
  else if !startBoundary pre then none
  else
    let run := s.takeWhile isAsciiAlnum
    if 3 ≤ run.length && run.any isAsciiAlpha && run.any isAsciiDigit &&
        endBoundary (s.drop run.length) then some run.length
    else none

/-- `PAREN = \([^()]*\)` (single level, non-nested). -/
def PAREN_at (_pre s : Str) : Option Nat :=
  match s with
  | '(' :: t =>
    let run := t.takeWhile (fun c => c ≠ '(' && c ≠ ')')
    match t.drop run.length with
    | ')' :: _ => some (run.length + 2)
    | _ => none
  | _ => none

/-! ## `re.finditer` -/

/-- Scanner for `re.finditer`: at each position try the matcher with the
reversed prefix (for lookbehind/boundary), emit the leftmost matches without
overlap.  All matchers above return positive lengths; the fuel (initially the
input length) therefore suffices. -/
def finditerAux (mA : Str → Str → Option Nat) : Nat → Str → Str → List Str
  | 0, _, _ => []
  | _ + 1, _, [] => []
  | fuel + 1, pre, c :: cs =>
    match mA pre (c :: cs) with
    | some n =>
      ((c :: cs).take n) ::
        finditerAux mA fuel (((c :: cs).take n).reverse ++ pre) ((c :: cs).drop n)
    | none => finditerAux mA fuel (c :: pre) cs

/-- All matches of a pattern in a string, leftmost, non-overlapping. -/
def reFindAll (mA : Str → Str → Option Nat) (s : Str) : List Str :=
  finditerAux mA s.length [] s

/-! ## The extractors of the source -/

/-- `extract_units_and_composed(text)`: `(units, composed)` normalized.
Composed dimensions run the three composed patterns on the text with `×`
replaced by `x`, then lower-case, remove all whitespace, and de-duplicate
keeping first occurrence.  Units run the nine unit patterns, lower-case and
remove `" "` (the space character only, `replace(" ", "")`), and
de-duplicate (see the set-order note in the header). -/
def extract_units_and_composed (t : Option Str) : List Str × List Str :=
  match t with
  | none => ([], [])
  | some s0 =>
    let s := xToX s0
    let composedRaw :=
      reFindAll COMPOSED_UNIT_UNIT_at s ++ reFindAll COMPOSED_M_MM_at s ++
        reFindAll COMPOSED_GENERIC_at s
    let composed_norm :=
      dedupKeepFirst (composedRaw.map (fun c => (strLower c).filter (fun ch => !isPySpace ch)))
    let unitsRaw :=
      reFindAll M_DEC_at s ++ reFindAll CM_DEC_at s ++ reFindAll MM_DEC_at s ++
        reFindAll M_INT_at s ++ reFindAll CM_INT_at s ++ reFindAll MM_INT_at s ++
        reFindAll G_at s ++ reFindAll ML_at s ++ reFindAll LIT_at s
    let units := dedupKeepFirst (unitsRaw.map (fun u => (strLower u).filter (fun ch => ch ≠ ' ')))
    (units, composed_norm)

/-- `extract_paper_sizes(text)`: lower-cased `group(1)` of each `PAPER` match
(the group is the whole match); no de-duplication in this extractor. -/
def extract_paper_sizes (t : Option Str) : List Str :=
  match t with
  | none => []
  | some s => (reFindAll PAPER_at s).map strLower

/-- `extract_qty_combos(text)`: `QTY` matches with `×` replaced by `x`, all
whitespace removed, lower-cased, de-duplicated keeping first occurrence. -/
def extract_qty_combos (t : Option Str) : List Str :=
  match t with
  | none => []
  | some s =>
    dedupKeepFirst
      ((reFindAll QTY_at s).map (fun c => (strLower (xToX c)).filter (fun ch => !isPySpace ch)))

/-- `extract_hy_codes(text)`: `HYCODE` matches in original case,
de-duplicated case-insensitively keeping the first occurrence. -/
def extract_hy_codes (t : Option Str) : List Str :=
  match t with
  | none => []
  | some s => dedupByLower (reFindAll HYCODE_at s)

/-- `extract_alnum_codes(text)`: `ALNUM_CODE` matches in original case,
de-duplicated case-insensitively keeping the first occurrence. -/
def extract_alnum_codes (t : Option Str) : List Str :=
  match t with
  | none => []
  | some s => dedupByLower (reFindAll ALNUM_CODE_at s)

/-- `extract_parentheses(text)`: `PAREN` matches in original case,
de-duplicated case-insensitively keeping the first occurrence. -/
def extract_parentheses (t : Option Str) : List Str :=
  match t with
  | none => []
  | some s => dedupByLower (reFindAll PAREN_at s)

/-- `extract_brand_from_rmark(text)`: the token before `®` (whole prefix if
the stripped prefix has no internal space character), accepted when at least
two characters long and containing a Latin or Hangul letter. -/
def extract_brand_from_rmark (t : Option Str) : Option Str :=
  match t with
  | none => none
  | some s =>
    if !s.contains '®' then none
    else
      let pref := pyStrip ((splitOnChar '®' s).headD [])
      if pref = [] then none
      else
        let token := if pref.contains ' ' then (pySplitWs pref).getLastD [] else pref
        if 2 ≤ token.length && token.any (fun c => isAsciiAlpha c || isHangulSyl c) then
          some token
        else none

/-! ## The merge and the row pipeline -/

/-- Base token list of `merge_specs`: split the existing spec on `/`, strip
each segment, keep the non-blank ones (empty list when the value is NA or
blank). -/
def pyBase (existing : Option Str) : List Str :=
  match existing with
  | none => []
  | some s =>
    if pyStrip s = [] then []
    else ((splitOnChar '/' s).map pyStrip).filter (fun p => p ≠ [])

/-- The merging loop of `merge_specs`: each part that is non-empty and
non-blank after stripping is appended unless its lower-cased form is already
present.  The source carries `base_norm` alongside `base`; it is always
exactly `base.map lower`, which is recomputed here. -/
def mergeLoop (base : List Str) : List Str → List Str
  | [] => base
  | p :: ps =>
    if p = [] then mergeLoop base ps
    else
      let pl := pyStrip p
      if pl = [] then mergeLoop base ps
      else if (base.map strLower).contains (strLower pl) then mergeLoop base ps
      else mergeLoop (base ++ [pl]) ps

/-- Packaging of a token list as the optional joined spec of the source:
NA when the list is empty, otherwise the `/`-join. -/
def optOfTokens (L : List Str) : Option Str :=
  if L = [] then none else some (joinSlash L)

/-- `merge_specs(existing, parts)`: merge into the `/`-joined spec,
de-duplicated case-insensitively; NA when the resulting list is empty. -/
def merge_specs (existing : Option Str) (parts : List Str) : Option Str :=
  optOfTokens (mergeLoop (pyBase existing) parts)

/-- A row of the input frame; every field is nullable text. -/
structure Row where
  pdt_name : Option Str
  pdt_name_clean : Option Str
  pdt_spec : Option Str
  brand_name : Option Str

/-- `UNIT_TOKEN_TO_DROP = ^\d+(?:\.\d+)?(?:mm|cm|m|g|ml|l|리터)$` (CI), as a
full-string test: digits, an optional well-formed decimal part, then exactly
one of the unit suffixes (the anchors make alternation order immaterial:
a token matches iff the remainder equals one of the seven suffixes). -/
def dropMatch (s : Str) : Bool :=
  let ds := s.takeWhile isAsciiDigit
  if ds = [] then false
  else
    let r1 := s.drop ds.length
    let r2 :=
      match r1 with
      | '.' :: t =>
        let d2 := t.takeWhile isAsciiDigit
        if d2 = [] then r1 else t.drop d2.length
      | _ => r1
    [['m', 'm'], ['c', 'm'], ['m'], ['g'], ['m', 'l'], ['l'], ['리', '터']].contains
      (strLower r2)

/-- Base tokens of `build_spec`: segments of `pdt_spec` whose strip is
non-blank, kept unstripped (`[p for p in str(base_spec).split("/") if p.strip()]`). -/
def spec_base_tokens (r : Row) : List Str :=
  match r.pdt_spec with
  | none => []
  | some s =>
    if pyStrip s = [] then []
    else (splitOnChar '/' s).filter (fun p => pyStrip p ≠ [])

/-- Stale-unit scrub of `build_spec`: drop every base token matching
`UNIT_TOKEN_TO_DROP` after stripping. -/
def spec_base_scrubbed (r : Row) : List Str :=
  (spec_base_tokens r).filter (fun t => !dropMatch (pyStrip t))

/-- The seven extractor category lists of `build_spec`, in merge order:
composed dimensions, units, paper sizes, quantity combos, hyphen codes,
compact alnum codes, parentheses (clean-name results before raw-name
results; parentheses from the raw name only). -/
def cat_lists (r : Row) : List (List Str) :=
  let uc := extract_units_and_composed r.pdt_name_clean
  let un := extract_units_and_composed r.pdt_name
  [uc.2 ++ un.2,
   uc.1 ++ un.1,
   extract_paper_sizes r.pdt_name_clean ++ extract_paper_sizes r.pdt_name,
   extract_qty_combos r.pdt_name_clean ++ extract_qty_combos r.pdt_name,
   extract_hy_codes r.pdt_name_clean ++ extract_hy_codes r.pdt_name,
   extract_alnum_codes r.pdt_name_clean ++ extract_alnum_codes r.pdt_name,
   extract_parentheses r.pdt_name]

/-- `build_spec(row)`: scrub the stale unit tokens of the stored spec, then
chain `merge_specs` over the seven category lists. -/
def build_spec (r : Row) : Option Str :=
  cat_lists r |>.foldl merge_specs (optOfTokens (spec_base_scrubbed r))

/-- The per-row brand assignment of `run`: copy `brand_name`; where it is NA
and `pdt_name_clean` contains `®` (NA renders as `"nan"`, which cannot),
apply `extract_brand_from_rmark` to `pdt_name_clean`. -/
def run_brand (r : Row) : Option Str :=
  match r.brand_name with
  | some b => some b
  | none =>
    if (match r.pdt_name_clean with | some s => s.contains '®' | none => false) then
      extract_brand_from_rmark r.pdt_name_clean
    else none

/-- Re-running the row pipeline on its own output: the produced spec becomes
the stored spec, the name fields are unchanged. -/
def respec (r : Row) : Row :=
  { r with pdt_spec := build_spec r }

/-! ## Auxiliary lemmas: characters and strings -/

/-- The 26 upper/lower pairs of the `lowerChar` table. -/
def ulPairs : List (Char × Char) :=
  [('A', 'a'), ('B', 'b'), ('C', 'c'), ('D', 'd'), ('E', 'e'), ('F', 'f'),
   ('G', 'g'), ('H', 'h'), ('I', 'i'), ('J', 'j'), ('K', 'k'), ('L', 'l'),
   ('M', 'm'), ('N', 'n'), ('O', 'o'), ('P', 'p'), ('Q', 'q'), ('R', 'r'),
   ('S', 's'), ('T', 't'), ('U', 'u'), ('V', 'v'), ('W', 'w'), ('X', 'x'),
   ('Y', 'y'), ('Z', 'z')]

theorem lowerChar_cases (c : Char) :
    lowerChar c = c ∨ ∃ p ∈ ulPairs, c = p.1 ∧ lowerChar c = p.2 := by
  unfold lowerChar
  split <;> first | (left; rfl) | decide

theorem lowerChar_idem (c : Char) : lowerChar (lowerChar c) = lowerChar c := by
  rcases lowerChar_cases c with h | ⟨p, hp, _, hl⟩
  · rw [h]; exact h
  · rw [hl]
    have hall : ∀ q ∈ ulPairs, lowerChar q.2 = q.2 := by decide
    exact hall p hp

theorem strLower_idem (s : Str) : strLower (strLower s) = strLower s := by
  induction s with
  | nil => rfl
  | cons c cs ih => simpa [strLower] using ⟨lowerChar_idem c, by simpa [strLower] using ih⟩

theorem dropWhile_head_false (s : Str) (c : Char)
    (h : (s.dropWhile isPySpace).head? = some c) : isPySpace c = false := by
  induction s with
  | nil => simp at h
  | cons a t ih =>
    by_cases ha : isPySpace a
    · rw [List.dropWhile_cons_of_pos ha] at h; exact ih h
    · rw [List.dropWhile_cons_of_neg ha] at h
      simp only [List.head?_cons, Option.some.injEq] at h
      subst h; exact Bool.eq_false_iff.mpr ha

theorem dropWhile_eq_self_of_head (l : Str)
    (h : ∀ c, l.head? = some c → isPySpace c = false) :
    l.dropWhile isPySpace = l := by
  cases l with
  | nil => rfl
  | cons a t =>
    have := h a (by simp)
    rw [List.dropWhile_cons_of_neg (by simp [this])]

theorem dropWhile_all_of_eq_nil (l : Str) (h : l.dropWhile isPySpace = []) :
    ∀ c ∈ l, isPySpace c = true := by
  induction l with
  | nil => simp
  | cons a t ih =>
    by_cases ha : isPySpace a
    · rw [List.dropWhile_cons_of_pos ha] at h
      intro c hc
      rcases List.mem_cons.mp hc with rfl | hc
      · exact ha
      · exact ih h c hc
    · rw [List.dropWhile_cons_of_neg ha] at h; cases h

theorem dropWhile_eq_nil_of_all (l : Str) (h : ∀ c ∈ l, isPySpace c = true) :
    l.dropWhile isPySpace = [] := by
  induction l with
  | nil => rfl
  | cons a t ih =>
    rw [List.dropWhile_cons_of_pos (h a (by simp))]
    exact ih fun c hc => h c (by simp [hc])

theorem head_of_isPrefix {l1 l2 : Str} {c : Char} (h : l1 <+: l2)
    (hc : l1.head? = some c) : l2.head? = some c := by
  obtain ⟨t, rfl⟩ := h
  cases l1 with
  | nil => simp at hc
  | cons a as => simpa using hc

theorem pyStrip_prefix_dropWhile (s : Str) :
    pyStrip s <+: s.dropWhile isPySpace := by
  unfold pyStrip
  have h : ((s.dropWhile isPySpace).reverse.dropWhile isPySpace) <:+
      (s.dropWhile isPySpace).reverse := List.dropWhile_suffix isPySpace
  have h2 := List.reverse_prefix.mpr h
  simpa using h2

theorem pyStrip_head_not (s : Str) (c : Char) (h : (pyStrip s).head? = some c) :
    isPySpace c = false :=
  dropWhile_head_false s c (head_of_isPrefix (pyStrip_prefix_dropWhile s) h)

theorem pyStrip_getLast_not (s : Str) (c : Char)
    (h : (pyStrip s).getLast? = some c) : isPySpace c = false := by
  unfold pyStrip at h
  rw [List.getLast?_reverse] at h
  exact dropWhile_head_false _ c (by simpa using h)

theorem pyStrip_eq_self (l : Str)
    (h1 : ∀ c, l.head? = some c → isPySpace c = false)
    (h2 : ∀ c, l.getLast? = some c → isPySpace c = false) :
    pyStrip l = l := by
  unfold pyStrip
  rw [dropWhile_eq_self_of_head l h1]
  rw [dropWhile_eq_self_of_head l.reverse (by
    intro c hc
    rw [List.head?_reverse] at hc
    exact h2 c hc)]
  exact List.reverse_reverse l

theorem pyStrip_idem (s : Str) : pyStrip (pyStrip s) = pyStrip s :=
  pyStrip_eq_self _ (pyStrip_head_not s) (pyStrip_getLast_not s)

theorem pyStrip_subset (s : Str) : ∀ c ∈ pyStrip s, c ∈ s := by
  intro c hc
  unfold pyStrip at hc
  rw [List.mem_reverse] at hc
  have hc2 := (List.dropWhile_suffix isPySpace).subset hc
  rw [List.mem_reverse] at hc2
  exact (List.dropWhile_suffix isPySpace).subset hc2

theorem pyStrip_eq_nil_iff (s : Str) :
    pyStrip s = [] ↔ ∀ c ∈ s, isPySpace c = true := by
  constructor
  · intro h c hc
    unfold pyStrip at h
    rw [List.reverse_eq_nil_iff] at h
    have h2 := dropWhile_all_of_eq_nil _ h
    have h3 : ∀ d ∈ s.dropWhile isPySpace, isPySpace d = true := by
      intro d hd
      exact h2 d (by simpa using hd)
    have hsplit : s.takeWhile isPySpace ++ s.dropWhile isPySpace = s :=
      List.takeWhile_append_dropWhile isPySpace s
    rw [← hsplit] at hc
    rcases List.mem_append.mp hc with hc | hc
    · exact List.mem_takeWhile_imp hc
    · exact h3 c hc
  · intro h
    unfold pyStrip
    rw [dropWhile_eq_nil_of_all s h]
    rfl

/-! ## Auxiliary lemmas: split and join -/

theorem splitOnChar_ne_nil (sep : Char) (s : Str) : splitOnChar sep s ≠ [] := by
  induction s with
  | nil => simp [splitOnChar]
  | cons c cs ih =>
    by_cases hc : c = sep
    · simp [splitOnChar, hc]
    · rcases hsp : splitOnChar sep cs with _ | ⟨t, ts⟩
      · exact absurd hsp ih
      · simp [splitOnChar, hc, hsp]

theorem mem_splitOnChar_no_sep (sep : Char) (s : Str) :
    ∀ t ∈ splitOnChar sep s, sep ∉ t := by
  induction s with
  | nil =>
    intro t ht
    simp [splitOnChar] at ht
    simp [ht]
  | cons c cs ih =>
    intro t ht
    by_cases hc : c = sep
    · rw [splitOnChar, if_pos hc] at ht
      rcases List.mem_cons.mp ht with rfl | ht
      · simp
      · exact ih t ht
    · rw [splitOnChar, if_neg hc] at ht
      rcases hsp : splitOnChar sep cs with _ | ⟨t0, ts⟩
      · exact absurd hsp (splitOnChar_ne_nil sep cs)
      · rw [hsp] at ht
        rcases List.mem_cons.mp ht with rfl | ht
        · intro hmem
          rcases List.mem_cons.mp hmem with h | h
          · exact hc h.symm
          · exact ih t0 (by simp [hsp]) h
        · exact ih t (by simp [hsp, ht])

theorem splitOnChar_append_sep (sep : Char) (r : Str) :
    ∀ t : Str, sep ∉ t →
      splitOnChar sep (t ++ sep :: r) = t :: splitOnChar sep r := by
  intro t
  induction t with
  | nil => intro _; simp [splitOnChar]
  | cons c t2 ih =>
    intro hns
    have hc : c ≠ sep := fun h => hns (by simp [h])
    have ht2 : sep ∉ t2 := fun h => hns (by simp [h])
    show splitOnChar sep (c :: (t2 ++ sep :: r)) = (c :: t2) :: splitOnChar sep r
    rw [splitOnChar, if_neg hc, ih ht2]

theorem splitOnChar_no_sep (sep : Char) : ∀ t : Str, sep ∉ t →
    splitOnChar sep t = [t] := by
  intro t
  induction t with
  | nil => intro _; rfl
  | cons c t2 ih =>
    intro hns
    have hc : c ≠ sep := fun h => hns (by simp [h])
    have ht2 : sep ∉ t2 := fun h => hns (by simp [h])
    simp only [splitOnChar, if_neg hc, ih ht2]

theorem joinSlash_cons_of_ne_nil (t : Str) (L : List Str) (h : L ≠ []) :
    joinSlash (t :: L) = t ++ '/' :: joinSlash L := by
  cases L with
  | nil => exact absurd rfl h
  | cons u us => rfl

theorem splitOnChar_joinSlash (L : List Str) (hne : L ≠ [])
    (hsep : ∀ t ∈ L, '/' ∉ t) : splitOnChar '/' (joinSlash L) = L := by
  induction L with
  | nil => exact absurd rfl hne
  | cons t ts ih =>
    cases ts with
    | nil => exact splitOnChar_no_sep '/' t (hsep t (by simp))
    | cons u us =>
      rw [joinSlash_cons_of_ne_nil t (u :: us) (by simp)]
      rw [splitOnChar_append_sep '/' (joinSlash (u :: us)) t (hsep t (by simp))]
      rw [ih (by simp) (fun x hx => hsep x (by simp [hx]))]

theorem splitOnChar_joinSlash_append (B A : List Str)
    (hsep : ∀ t ∈ B, '/' ∉ t) (hA : A ≠ []) :
    splitOnChar '/' (joinSlash (B ++ A)) = B ++ splitOnChar '/' (joinSlash A) := by
  induction B with
  | nil => simp
  | cons b B2 ih =>
    have hBA : B2 ++ A ≠ [] := by
      intro h
      rcases List.append_eq_nil.mp h with ⟨_, h2⟩
      exact hA h2
    rw [List.cons_append, joinSlash_cons_of_ne_nil b (B2 ++ A) hBA]
    rw [splitOnChar_append_sep '/' (joinSlash (B2 ++ A)) b (hsep b (by simp))]
    rw [ih (fun x hx => hsep x (by simp [hx]))]
    rfl

theorem mem_joinSlash (L : List Str) (t : Str) (c : Char) (ht : t ∈ L)
    (hc : c ∈ t) : c ∈ joinSlash L := by
  induction L with
  | nil => simp at ht
  | cons u us ih =>
    cases us with
    | nil =>
      rcases List.mem_cons.mp ht with rfl | h
      · simpa using hc
      · simp at h
    | cons v vs =>
      rw [joinSlash_cons_of_ne_nil u (v :: vs) (by simp)]
      rcases List.mem_cons.mp ht with rfl | h
      · exact List.mem_append.mpr (Or.inl hc)
      · exact List.mem_append.mpr (Or.inr (by simp [ih h]))

theorem joinSlash_head? (L : List Str) (t : Str) (hh : L.head? = some t)
    (hne : t ≠ []) : (joinSlash L).head? = t.head? := by
  cases L with
  | nil => simp at hh
  | cons u us =>
    have hu : u = t := by simpa using hh
    subst hu
    cases us with
    | nil => rfl
    | cons v vs =>
      rw [joinSlash_cons_of_ne_nil u (v :: vs) (by simp)]
      cases u with
      | nil => exact absurd rfl hne
      | cons a as => rfl

theorem joinSlash_ne_nil (L : List Str) (hne : L ≠ [])
    (h : ∀ t ∈ L, t ≠ []) : joinSlash L ≠ [] := by
  cases L with
  | nil => exact absurd rfl hne
  | cons u us =>
    cases us with
    | nil => exact h u (by simp)
    | cons v vs =>
      rw [joinSlash_cons_of_ne_nil u (v :: vs) (by simp)]
      intro hcontra
      rcases List.append_eq_nil.mp hcontra with ⟨_, h2⟩
      cases h2

theorem joinSlash_getLast? : ∀ L : List Str, ∀ t : Str, L.getLast? = some t →
    (∀ x ∈ L, x ≠ []) → (joinSlash L).getLast? = t.getLast? := by
  intro L
  induction L with
  | nil => intro t hh _; simp at hh
  | cons u us ih =>
    intro t hh hne
    cases us with
    | nil =>
      have hu : u = t := by simpa using hh
      subst hu
      rfl
    | cons v vs =>
      rw [List.getLast?_cons_cons] at hh
      rw [joinSlash_cons_of_ne_nil u (v :: vs) (by simp)]
      have hjoin_ne : joinSlash (v :: vs) ≠ [] :=
        joinSlash_ne_nil (v :: vs) (by simp) (fun x hx => hne x (by simp [hx]))
      have hrec : (joinSlash (v :: vs)).getLast? = t.getLast? :=
        ih t hh (fun x hx => hne x (by simp [hx]))
      have hsome : ∃ d, (joinSlash (v :: vs)).getLast? = some d := by
        rcases hj : (joinSlash (v :: vs)).getLast? with _ | d
        · exact absurd (List.getLast?_eq_none_iff.mp hj) hjoin_ne
        · exact ⟨d, rfl⟩
      rcases hsome with ⟨d, hd⟩
      rw [List.getLast?_append]
      rcases hjv : joinSlash (v :: vs) with _ | ⟨a, as⟩
      · exact absurd hjv hjoin_ne
      · rw [hjv] at hd hrec
        have : ('/' :: a :: as).getLast? = (a :: as).getLast? :=
          List.getLast?_cons_cons
        rw [this, hd]
        simpa [hd] using hrec

/-! ## Auxiliary lemmas: trimmed joins -/

theorem pyStrip_joinSlash (L : List Str) (hne : L ≠ [])
    (h : ∀ t ∈ L, t ≠ [] ∧ pyStrip t = t) :
    pyStrip (joinSlash L) = joinSlash L := by
  cases L with
  | nil => exact absurd rfl hne
  | cons u us =>
    have hu := h u (by simp)
    apply pyStrip_eq_self
    · intro c hc
      rw [joinSlash_head? (u :: us) u rfl hu.1] at hc
      exact pyStrip_head_not u c (by rw [hu.2]; exact hc)
    · intro c hc
      have hlast : ∃ t, (u :: us).getLast? = some t ∧ t ∈ u :: us := by
        rcases hg : (u :: us).getLast? with _ | t
        · simp at hg
        · exact ⟨t, rfl, List.mem_of_mem_getLast? (by simp [hg])⟩
      rcases hlast with ⟨t, hgl, hmem⟩
      have ht := h t hmem
      rw [joinSlash_getLast? (u :: us) t hgl (fun x hx => (h x hx).1)] at hc
      exact pyStrip_getLast_not t c (by rw [ht.2]; exact hc)

theorem joinSlash_not_all_space (L : List Str) (p0 : Str) (hp0 : p0 ∈ L)
    (hst : pyStrip p0 ≠ []) : pyStrip (joinSlash L) ≠ [] := by
  intro hcontra
  have hall := (pyStrip_eq_nil_iff (joinSlash L)).mp hcontra
  apply hst
  rw [pyStrip_eq_nil_iff]
  intro c hc
  exact hall c (mem_joinSlash L p0 c hp0 hc)

/-! ## Auxiliary lemmas: the merge loop -/

theorem mergeLoop_nil (base : List Str) : mergeLoop base [] = base := rfl

theorem mergeLoop_cons_skip (base : List Str) (p : Str) (ps : List Str)
    (h : pyStrip p = []) : mergeLoop base (p :: ps) = mergeLoop base ps := by
  by_cases hp : p = []
  · simp [mergeLoop, hp]
  · simp [mergeLoop, hp, h]

theorem mergeLoop_cons_mem (base : List Str) (p : Str) (ps : List Str)
    (h : pyStrip p ≠ [])
    (hmem : strLower (pyStrip p) ∈ base.map strLower) :
    mergeLoop base (p :: ps) = mergeLoop base ps := by
  have hp : p ≠ [] := by intro hc; subst hc; exact h rfl
  simp [mergeLoop, hp, h, hmem]

theorem mergeLoop_cons_new (base : List Str) (p : Str) (ps : List Str)
    (h : pyStrip p ≠ [])
    (hmem : strLower (pyStrip p) ∉ base.map strLower) :
    mergeLoop base (p :: ps) = mergeLoop (base ++ [pyStrip p]) ps := by
  have hp : p ≠ [] := by intro hc; subst hc; exact h rfl
  simp [mergeLoop, hp, h, hmem]

theorem mergeLoop_append_ex : ∀ (parts base : List Str),
    ∃ app, mergeLoop base parts = base ++ app := by
  intro parts
  induction parts with
  | nil => exact fun base => ⟨[], by simp [mergeLoop_nil]⟩
  | cons p ps ih =>
    intro base
    by_cases h : pyStrip p = []
    · rw [mergeLoop_cons_skip base p ps h]; exact ih base
    · by_cases hmem : strLower (pyStrip p) ∈ base.map strLower
      · rw [mergeLoop_cons_mem base p ps h hmem]; exact ih base
      · rw [mergeLoop_cons_new base p ps h hmem]
        obtain ⟨app, happ⟩ := ih (base ++ [pyStrip p])
        exact ⟨pyStrip p :: app, by simpa using happ⟩

theorem mergeLoop_mem : ∀ (parts base : List Str) (t : Str),
    t ∈ mergeLoop base parts →
      t ∈ base ∨ ∃ p ∈ parts, t = pyStrip p ∧ pyStrip p ≠ [] := by
  intro parts
  induction parts with
  | nil => intro base t ht; exact Or.inl (by simpa [mergeLoop_nil] using ht)
  | cons p ps ih =>
    intro base t ht
    by_cases h : pyStrip p = []
    · rw [mergeLoop_cons_skip base p ps h] at ht
      rcases ih base t ht with h1 | ⟨q, hq, ht2⟩
      · exact Or.inl h1
      · exact Or.inr ⟨q, by simp [hq], ht2⟩
    · by_cases hmem : strLower (pyStrip p) ∈ base.map strLower
      · rw [mergeLoop_cons_mem base p ps h hmem] at ht
        rcases ih base t ht with h1 | ⟨q, hq, ht2⟩
        · exact Or.inl h1
        · exact Or.inr ⟨q, by simp [hq], ht2⟩
      · rw [mergeLoop_cons_new base p ps h hmem] at ht
        rcases ih (base ++ [pyStrip p]) t ht with h1 | ⟨q, hq, ht2⟩
        · rcases List.mem_append.mp h1 with h2 | h2
          · exact Or.inl h2
          · exact Or.inr ⟨p, by simp, by simpa using h2, h⟩
        · exact Or.inr ⟨q, by simp [hq], ht2⟩

theorem mergeLoop_lower_mem : ∀ (parts base : List Str) (x : Str),
    x ∈ (mergeLoop base parts).map strLower ↔
      x ∈ base.map strLower ∨
        ∃ p ∈ parts, pyStrip p ≠ [] ∧ strLower (pyStrip p) = x := by
  intro parts
  induction parts with
  | nil =>
    intro base x
    simp [mergeLoop_nil]
  | cons p ps ih =>
    intro base x
    by_cases h : pyStrip p = []
    · rw [mergeLoop_cons_skip base p ps h, ih base x]
      constructor
      · rintro (h1 | ⟨q, hq, h2⟩)
        · exact Or.inl h1
        · exact Or.inr ⟨q, by simp [hq], h2⟩
      · rintro (h1 | ⟨q, hq, h2⟩)
        · exact Or.inl h1
        · rcases List.mem_cons.mp hq with rfl | hq2
          · exact absurd h2.1 (by simp [h])
          · exact Or.inr ⟨q, hq2, h2⟩
    · by_cases hmem : strLower (pyStrip p) ∈ base.map strLower
      · rw [mergeLoop_cons_mem base p ps h hmem, ih base x]
        constructor
        · rintro (h1 | ⟨q, hq, h2⟩)
          · exact Or.inl h1
          · exact Or.inr ⟨q, by simp [hq], h2⟩
        · rintro (h1 | ⟨q, hq, h2⟩)
          · exact Or.inl h1
          · rcases List.mem_cons.mp hq with rfl | hq2
            · exact Or.inl (h2.2 ▸ hmem)
            · exact Or.inr ⟨q, hq2, h2⟩
      · rw [mergeLoop_cons_new base p ps h hmem, ih (base ++ [pyStrip p]) x]
        constructor
        · rintro (h1 | ⟨q, hq, h2⟩)
          · rcases List.mem_append.mp (by simpa using h1 : x ∈ base.map strLower ++ [strLower (pyStrip p)]) with h2 | h2
            · exact Or.inl h2
            · exact Or.inr ⟨p, by simp, h, (List.mem_singleton.mp h2).symm⟩
          · exact Or.inr ⟨q, by simp [hq], h2⟩
        · rintro (h1 | ⟨q, hq, h2⟩)
          · exact Or.inl (by simp [h1])
          · rcases List.mem_cons.mp hq with rfl | hq2
            · exact Or.inl (by simp [h2.2])
            · exact Or.inr ⟨q, hq2, h2⟩

theorem mergeLoop_eq_self : ∀ (parts base : List Str),
    (∀ p ∈ parts, pyStrip p = [] ∨ strLower (pyStrip p) ∈ base.map strLower) →
    mergeLoop base parts = base := by
  intro parts
  induction parts with
  | nil => intro base _; exact mergeLoop_nil base
  | cons p ps ih =>
    intro base hall
    rcases hall p (by simp) with h | h
    · rw [mergeLoop_cons_skip base p ps h]
      exact ih base (fun q hq => hall q (by simp [hq]))
    · by_cases hp : pyStrip p = []
      · rw [mergeLoop_cons_skip base p ps hp]
        exact ih base (fun q hq => hall q (by simp [hq]))
      · rw [mergeLoop_cons_mem base p ps hp h]
        exact ih base (fun q hq => hall q (by simp [hq]))

theorem mergeLoop_pairwise : ∀ (parts base : List Str),
    base.Pairwise (fun a b => strLower a ≠ strLower b) →
    (mergeLoop base parts).Pairwise (fun a b => strLower a ≠ strLower b) := by
  intro parts
  induction parts with
  | nil => intro base h; simpa [mergeLoop_nil] using h
  | cons p ps ih =>
    intro base h
    by_cases hs : pyStrip p = []
    · rw [mergeLoop_cons_skip base p ps hs]; exact ih base h
    · by_cases hmem : strLower (pyStrip p) ∈ base.map strLower
      · rw [mergeLoop_cons_mem base p ps hs hmem]; exact ih base h
      · rw [mergeLoop_cons_new base p ps hs hmem]
        apply ih
        rw [List.pairwise_append]
        refine ⟨h, by simp, ?_⟩
        intro a ha b hb
        rcases List.mem_singleton.mp hb with rfl
        intro hcontra
        exact hmem (by rw [← hcontra]; exact List.mem_map_of_mem strLower ha)

/-! ## Auxiliary lemmas: base tokens and the merge chain -/

/-- Well-formed spec tokens: non-empty, trimmed, delimiter-free.  Every token
ever stored by `merge_specs` satisfies this (given delimiter-free parts). -/
def GoodTok (t : Str) : Prop := t ≠ [] ∧ pyStrip t = t ∧ '/' ∉ t

theorem pyBase_good (e : Option Str) : ∀ t ∈ pyBase e, GoodTok t := by
  intro t ht
  cases e with
  | none => simp [pyBase] at ht
  | some s =>
    by_cases hs : pyStrip s = []
    · simp [pyBase, hs] at ht
    · rw [pyBase, if_neg hs] at ht
      rcases List.mem_filter.mp ht with ⟨ht1, ht2⟩
      rcases List.mem_map.mp ht1 with ⟨u, hu, rfl⟩
      refine ⟨by simpa using ht2, pyStrip_idem u, ?_⟩
      intro hc
      exact mem_splitOnChar_no_sep '/' s u hu (pyStrip_subset u '/' hc)

theorem pyBase_optOf (L : List Str) (h : ∀ t ∈ L, GoodTok t) :
    pyBase (optOfTokens L) = L := by
  by_cases hL : L = []
  · subst hL; rfl
  · rw [optOfTokens, if_neg hL]
    have hgood : ∀ t ∈ L, t ≠ [] ∧ pyStrip t = t := fun t ht =>
      ⟨(h t ht).1, (h t ht).2.1⟩
    have hstrip : pyStrip (joinSlash L) = joinSlash L := pyStrip_joinSlash L hL hgood
    have hjoin_ne : joinSlash L ≠ [] :=
      joinSlash_ne_nil L hL (fun t ht => (h t ht).1)
    rw [pyBase, if_neg (by rw [hstrip]; exact hjoin_ne)]
    rw [splitOnChar_joinSlash L hL (fun t ht => (h t ht).2.2)]
    have hmap : L.map pyStrip = L :=
      (List.map_congr_left (fun t ht => (h t ht).2.1)).trans (List.map_id L)
    rw [hmap]
    apply List.filter_eq_self.mpr
    intro t ht
    simpa using (h t ht).1

theorem pyBase_optOf_raw (bt : List Str)
    (h : ∀ p ∈ bt, '/' ∉ p ∧ pyStrip p ≠ []) :
    pyBase (optOfTokens bt) = bt.map pyStrip := by
  by_cases hbt : bt = []
  · subst hbt; rfl
  · rw [optOfTokens, if_neg hbt]
    have hp0 : ∃ p0, p0 ∈ bt := by
      cases bt with
      | nil => exact absurd rfl hbt
      | cons u us => exact ⟨u, by simp⟩
    rcases hp0 with ⟨p0, hp0⟩
    have hnz : pyStrip (joinSlash bt) ≠ [] :=
      joinSlash_not_all_space bt p0 hp0 (h p0 hp0).2
    rw [pyBase, if_neg hnz]
    rw [splitOnChar_joinSlash bt hbt (fun t ht => (h t ht).1)]
    apply List.filter_eq_self.mpr
    intro t ht
    rcases List.mem_map.mp ht with ⟨u, hu, rfl⟩
    simpa using (h u hu).2

theorem mergeLoop_good (parts base : List Str)
    (hb : ∀ t ∈ base, GoodTok t) (hp : ∀ p ∈ parts, '/' ∉ p) :
    ∀ t ∈ mergeLoop base parts, GoodTok t := by
  intro t ht
  rcases mergeLoop_mem parts base t ht with h | ⟨p, hmem, rfl, hne⟩
  · exact hb t h
  · exact ⟨hne, pyStrip_idem p, fun hc => hp p hmem (pyStrip_subset p '/' hc)⟩

/-- The token list built by the chained merges of `build_spec`, as a function
of the initial base list and the seven category lists. -/
def chainTokens (B : List Str) (cats : List (List Str)) : List Str :=
  cats.foldl mergeLoop B

theorem chainTokens_good (cats : List (List Str)) : ∀ B : List Str,
    (∀ t ∈ B, GoodTok t) → (∀ cat ∈ cats, ∀ p ∈ cat, '/' ∉ p) →
    ∀ t ∈ chainTokens B cats, GoodTok t := by
  induction cats with
  | nil => intro B hB _ t ht; exact hB t ht
  | cons c cs ih =>
    intro B hB hsl t ht
    exact ih (mergeLoop B c)
      (mergeLoop_good c B hB (fun p hp => hsl c (by simp) p hp))
      (fun cat hcat p hp => hsl cat (by simp [hcat]) p hp) t ht

theorem chainTokens_append_ex (cats : List (List Str)) : ∀ B : List Str,
    ∃ app, chainTokens B cats = B ++ app := by
  induction cats with
  | nil => intro B; exact ⟨[], by simp [chainTokens]⟩
  | cons c cs ih =>
    intro B
    obtain ⟨a1, ha1⟩ := mergeLoop_append_ex c B
    obtain ⟨a2, ha2⟩ := ih (mergeLoop B c)
    refine ⟨a1 ++ a2, ?_⟩
    show chainTokens (mergeLoop B c) cs = B ++ (a1 ++ a2)
    rw [ha2, ha1, List.append_assoc]

theorem chainTokens_lower_mem (cats : List (List Str)) : ∀ (B : List Str) (x : Str),
    x ∈ (chainTokens B cats).map strLower ↔
      x ∈ B.map strLower ∨
        ∃ cat ∈ cats, ∃ p ∈ cat, pyStrip p ≠ [] ∧ strLower (pyStrip p) = x := by
  induction cats with
  | nil => intro B x; simp [chainTokens]
  | cons c cs ih =>
    intro B x
    have h1 : x ∈ (chainTokens (mergeLoop B c) cs).map strLower ↔ _ :=
      ih (mergeLoop B c) x
    constructor
    · intro h
      rcases (ih (mergeLoop B c) x).mp h with h2 | ⟨cat, hcat, p, hp, h3⟩
      · rcases (mergeLoop_lower_mem c B x).mp h2 with h4 | ⟨p, hp, h5⟩
        · exact Or.inl h4
        · exact Or.inr ⟨c, by simp, p, hp, h5⟩
      · exact Or.inr ⟨cat, by simp [hcat], p, hp, h3⟩
    · intro h
      apply (ih (mergeLoop B c) x).mpr
      rcases h with h2 | ⟨cat, hcat, p, hp, h3⟩
      · exact Or.inl ((mergeLoop_lower_mem c B x).mpr (Or.inl h2))
      · rcases List.mem_cons.mp hcat with rfl | hcat2
        · exact Or.inl ((mergeLoop_lower_mem cat B x).mpr (Or.inr ⟨p, hp, h3⟩))
        · exact Or.inr ⟨cat, hcat2, p, hp, h3⟩

theorem chainTokens_pairwise (cats : List (List Str)) : ∀ B : List Str,
    B.Pairwise (fun a b => strLower a ≠ strLower b) →
    (chainTokens B cats).Pairwise (fun a b => strLower a ≠ strLower b) := by
  induction cats with
  | nil => intro B h; exact h
  | cons c cs ih =>
    intro B h
    exact ih (mergeLoop B c) (mergeLoop_pairwise c B h)

theorem foldl_merge_optOf (cats : List (List Str)) : ∀ L : List Str,
    (∀ t ∈ L, GoodTok t) → (∀ cat ∈ cats, ∀ p ∈ cat, '/' ∉ p) →
    List.foldl merge_specs (optOfTokens L) cats = optOfTokens (chainTokens L cats) := by
  induction cats with
  | nil => intro L _ _; rfl
  | cons c cs ih =>
    intro L hL hsl
    show List.foldl merge_specs (merge_specs (optOfTokens L) c) cs = _
    have h1 : merge_specs (optOfTokens L) c = optOfTokens (mergeLoop L c) := by
      rw [merge_specs, pyBase_optOf L hL]
    rw [h1]
    exact ih (mergeLoop L c)
      (mergeLoop_good c L hL (fun p hp => hsl c (by simp) p hp))
      (fun cat hcat p hp => hsl cat (by simp [hcat]) p hp)

theorem spec_base_tokens_good (r : Row) :
    ∀ p ∈ spec_base_tokens r, '/' ∉ p ∧ pyStrip p ≠ [] := by
  intro p hp
  rcases hspec : r.pdt_spec with _ | s
  · simp only [spec_base_tokens, hspec] at hp; simp at hp
  · simp only [spec_base_tokens, hspec] at hp
    by_cases hs : pyStrip s = []
    · rw [if_pos hs] at hp; simp at hp
    · rw [if_neg hs] at hp
      rcases List.mem_filter.mp hp with ⟨hp1, hp2⟩
      exact ⟨mem_splitOnChar_no_sep '/' s p hp1, by simpa using hp2⟩

theorem spec_base_scrubbed_good (r : Row) :
    ∀ p ∈ spec_base_scrubbed r,
      ('/' ∉ p ∧ pyStrip p ≠ []) ∧ dropMatch (pyStrip p) = false := by
  intro p hp
  rcases List.mem_filter.mp hp with ⟨hp1, hp2⟩
  exact ⟨spec_base_tokens_good r p hp1, by simpa using hp2⟩

theorem spec_base_tokens_eq (r : Row) (L : List Str)
    (hr : r.pdt_spec = optOfTokens L) (h : ∀ t ∈ L, GoodTok t) :
    spec_base_tokens r = L := by
  by_cases hL : L = []
  · subst hL
    simp [spec_base_tokens, hr, optOfTokens]
  · have h2 : optOfTokens L = some (joinSlash L) := by rw [optOfTokens, if_neg hL]
    simp only [spec_base_tokens, hr, h2]
    have hgood : ∀ t ∈ L, t ≠ [] ∧ pyStrip t = t := fun t ht =>
      ⟨(h t ht).1, (h t ht).2.1⟩
    have hstrip : pyStrip (joinSlash L) = joinSlash L := pyStrip_joinSlash L hL hgood
    have hjoin_ne : joinSlash L ≠ [] :=
      joinSlash_ne_nil L hL (fun t ht => (h t ht).1)
    rw [if_neg (by rw [hstrip]; exact hjoin_ne)]
    rw [splitOnChar_joinSlash L hL (fun t ht => (h t ht).2.2)]
    apply List.filter_eq_self.mpr
    intro t ht
    have := h t ht
    simp [this.2.1, this.1]

/-- The chained merges of `build_spec`, started on the raw (unstripped)
scrubbed base tokens, produce exactly the chain over the stripped base. -/
theorem foldl_merge_optOf_raw (bt : List Str) (c : List Str) (cs : List (List Str))
    (hbt : ∀ p ∈ bt, '/' ∉ p ∧ pyStrip p ≠ [])
    (hsl : ∀ cat ∈ c :: cs, ∀ p ∈ cat, '/' ∉ p) :
    List.foldl merge_specs (optOfTokens bt) (c :: cs) =
      optOfTokens (chainTokens (bt.map pyStrip) (c :: cs)) := by
  have hgood : ∀ t ∈ bt.map pyStrip, GoodTok t := by
    intro t ht
    rcases List.mem_map.mp ht with ⟨u, hu, rfl⟩
    exact ⟨(hbt u hu).2, pyStrip_idem u,
      fun hc => (hbt u hu).1 (pyStrip_subset u '/' hc)⟩
  show List.foldl merge_specs (merge_specs (optOfTokens bt) c) cs = _
  have h1 : merge_specs (optOfTokens bt) c = optOfTokens (mergeLoop (bt.map pyStrip) c) := by
    rw [merge_specs, pyBase_optOf_raw bt hbt]
  rw [h1]
  exact foldl_merge_optOf cs (mergeLoop (bt.map pyStrip) c)
    (mergeLoop_good c (bt.map pyStrip) hgood (fun p hp => hsl c (by simp) p hp))
    (fun cat hcat p hp => hsl cat (by simp [hcat]) p hp)

theorem map_pyStrip_good (bt : List Str)
    (hbt : ∀ p ∈ bt, '/' ∉ p ∧ pyStrip p ≠ []) :
    ∀ t ∈ bt.map pyStrip, GoodTok t := by
  intro t ht
  rcases List.mem_map.mp ht with ⟨u, hu, rfl⟩
  exact ⟨(hbt u hu).2, pyStrip_idem u,
    fun hc => (hbt u hu).1 (pyStrip_subset u '/' hc)⟩

theorem cat_lists_respec (r : Row) : cat_lists (respec r) = cat_lists r := rfl

theorem cat_lists_ne_nil (r : Row) : cat_lists r ≠ [] := by
  simp [cat_lists]

theorem build_spec_eq_chain (r : Row)
    (hsl : ∀ cat ∈ cat_lists r, ∀ p ∈ cat, '/' ∉ p) :
    build_spec r =
      optOfTokens (chainTokens ((spec_base_scrubbed r).map pyStrip) (cat_lists r)) := by
  have hbt : ∀ p ∈ spec_base_scrubbed r, '/' ∉ p ∧ pyStrip p ≠ [] :=
    fun p hp => (spec_base_scrubbed_good r p hp).1
  rcases hcl : cat_lists r with _ | ⟨c, cs⟩
  · exact absurd hcl (cat_lists_ne_nil r)
  · have hr := foldl_merge_optOf_raw (spec_base_scrubbed r) c cs hbt
      (by rw [← hcl]; exact hsl)
    calc build_spec r
        = List.foldl merge_specs (optOfTokens (spec_base_scrubbed r)) (cat_lists r) := rfl
      _ = _ := by rw [hcl]; exact hr

theorem build_spec_tokens (r : Row)
    (hsl : ∀ cat ∈ cat_lists r, ∀ p ∈ cat, '/' ∉ p) :
    pyBase (build_spec r) =
      chainTokens ((spec_base_scrubbed r).map pyStrip) (cat_lists r) := by
  rw [build_spec_eq_chain r hsl]
  apply pyBase_optOf
  exact chainTokens_good (cat_lists r) _
    (map_pyStrip_good (spec_base_scrubbed r)
      (fun p hp => (spec_base_scrubbed_good r p hp).1)) hsl

theorem respec_lower_mem (r : Row)
    (hsl : ∀ cat ∈ cat_lists r, ∀ p ∈ cat, '/' ∉ p) (x : Str) :
    (x ∈ (pyBase (build_spec (respec r))).map strLower ↔
      x ∈ (pyBase (build_spec r)).map strLower) := by
  have hbt0 : ∀ p ∈ spec_base_scrubbed r, '/' ∉ p ∧ pyStrip p ≠ [] :=
    fun p hp => (spec_base_scrubbed_good r p hp).1
  have hB0good : ∀ t ∈ (spec_base_scrubbed r).map pyStrip, GoodTok t :=
    map_pyStrip_good _ hbt0
  have hB0scrub : ∀ t ∈ (spec_base_scrubbed r).map pyStrip, dropMatch t = false := by
    intro t ht
    rcases List.mem_map.mp ht with ⟨u, hu, rfl⟩
    exact (spec_base_scrubbed_good r u hu).2
  have hT1good : ∀ t ∈ chainTokens ((spec_base_scrubbed r).map pyStrip) (cat_lists r),
      GoodTok t :=
    chainTokens_good (cat_lists r) _ hB0good hsl
  have hT1 : pyBase (build_spec r) =
      chainTokens ((spec_base_scrubbed r).map pyStrip) (cat_lists r) :=
    build_spec_tokens r hsl
  have hrs : (respec r).pdt_spec =
      optOfTokens (chainTokens ((spec_base_scrubbed r).map pyStrip) (cat_lists r)) :=
    build_spec_eq_chain r hsl
  have hsbt : spec_base_tokens (respec r) =
      chainTokens ((spec_base_scrubbed r).map pyStrip) (cat_lists r) :=
    spec_base_tokens_eq (respec r) _ hrs hT1good
  have hscrub1 : spec_base_scrubbed (respec r) =
      (chainTokens ((spec_base_scrubbed r).map pyStrip) (cat_lists r)).filter
        (fun t => !dropMatch (pyStrip t)) := by
    rw [spec_base_scrubbed, hsbt]
  have hfilter_good : ∀ t ∈ spec_base_scrubbed (respec r), GoodTok t := by
    intro t ht
    rw [hscrub1] at ht
    exact hT1good t (List.mem_of_mem_filter ht)
  have hB1 : (spec_base_scrubbed (respec r)).map pyStrip =
      (chainTokens ((spec_base_scrubbed r).map pyStrip) (cat_lists r)).filter
        (fun t => !dropMatch (pyStrip t)) := by
    rw [← hscrub1]
    exact (List.map_congr_left
      (fun t ht => (hfilter_good t ht).2.1)).trans (List.map_id _)
  have hsl2 : ∀ cat ∈ cat_lists (respec r), ∀ p ∈ cat, '/' ∉ p := by
    rw [cat_lists_respec]; exact hsl
  have hT2 : pyBase (build_spec (respec r)) =
      chainTokens
        ((chainTokens ((spec_base_scrubbed r).map pyStrip) (cat_lists r)).filter
          (fun t => !dropMatch (pyStrip t)))
        (cat_lists r) := by
    rw [build_spec_tokens (respec r) hsl2, hB1, cat_lists_respec]
  rw [hT1, hT2]
  rw [chainTokens_lower_mem (cat_lists r)
    ((chainTokens ((spec_base_scrubbed r).map pyStrip) (cat_lists r)).filter
      (fun t => !dropMatch (pyStrip t))) x]
  rw [chainTokens_lower_mem (cat_lists r) ((spec_base_scrubbed r).map pyStrip) x]
  constructor
  · rintro (h1 | hP)
    · -- a token surviving the second scrub comes from the first chain
      rcases List.mem_map.mp h1 with ⟨e, he, rfl⟩
      have he2 : e ∈ chainTokens ((spec_base_scrubbed r).map pyStrip) (cat_lists r) :=
        List.mem_of_mem_filter he
      exact (chainTokens_lower_mem (cat_lists r) _ (strLower e)).mp
        (List.mem_map_of_mem strLower he2)
    · exact Or.inr hP
  · rintro (h1 | hP)
    · -- a base token is never scrubbed again: it survives the second filter
      rcases List.mem_map.mp h1 with ⟨e, he, rfl⟩
      left
      apply List.mem_map_of_mem strLower
      apply List.mem_filter.mpr
      have heT1 : e ∈ chainTokens ((spec_base_scrubbed r).map pyStrip) (cat_lists r) := by
        obtain ⟨app, happ⟩ :=
          chainTokens_append_ex (cat_lists r) ((spec_base_scrubbed r).map pyStrip)
        rw [happ]
        exact List.mem_append.mpr (Or.inl he)
      refine ⟨heT1, ?_⟩
      have hinv : pyStrip e = e := (hB0good e he).2.1
      rw [hinv, hB0scrub e he]
      rfl
    · exact Or.inr hP

theorem merge_specs_self_idem (e : Option Str) (parts : List Str)
    (h : ∀ p ∈ parts, '/' ∉ p) :
    merge_specs (merge_specs e parts) parts = merge_specs e parts := by
  have hgoodL : ∀ t ∈ mergeLoop (pyBase e) parts, GoodTok t :=
    mergeLoop_good parts (pyBase e) (pyBase_good e) h
  show merge_specs (optOfTokens (mergeLoop (pyBase e) parts)) parts = _
  rw [merge_specs, pyBase_optOf _ hgoodL]
  show optOfTokens (mergeLoop (mergeLoop (pyBase e) parts) parts) =
    optOfTokens (mergeLoop (pyBase e) parts)
  congr 1
  apply mergeLoop_eq_self
  intro p hp
  by_cases hps : pyStrip p = []
  · exact Or.inl hps
  · exact Or.inr ((mergeLoop_lower_mem parts (pyBase e) (strLower (pyStrip p))).mpr
      (Or.inr ⟨p, hp, hps, rfl⟩))

theorem build_spec_pairwise (r : Row)
    (hsl : ∀ cat ∈ cat_lists r, ∀ p ∈ cat, '/' ∉ p)
    (hpw : ((spec_base_tokens r).map pyStrip).Pairwise
      (fun a b => strLower a ≠ strLower b)) :
    (pyBase (build_spec r)).Pairwise (fun a b => strLower a ≠ strLower b) := by
  rw [build_spec_tokens r hsl]
  apply chainTokens_pairwise
  have hsub : ((spec_base_scrubbed r).map pyStrip).Sublist
      ((spec_base_tokens r).map pyStrip) :=
    (List.filter_sublist _).map pyStrip
  exact hpw.sublist hsub

theorem build_spec_frame (r : Row)
    (hsl : ∀ cat ∈ cat_lists r, ∀ p ∈ cat, '/' ∉ p) :
    ∃ app, pyBase (build_spec r) = (spec_base_scrubbed r).map pyStrip ++ app := by
  rw [build_spec_tokens r hsl]
  exact chainTokens_append_ex (cat_lists r) _

/-! ## Auxiliary lemmas: extractor normalization -/

theorem dedupKeepFirstAux_subset : ∀ (l seen : List Str) (t : Str),
    t ∈ dedupKeepFirstAux seen l → t ∈ l := by
  intro l
  induction l with
  | nil => intro seen t ht; simp [dedupKeepFirstAux] at ht
  | cons x xs ih =>
    intro seen t ht
    rw [dedupKeepFirstAux] at ht
    by_cases hx : seen.contains x
    · rw [if_pos hx] at ht
      exact List.mem_cons.mpr (Or.inr (ih seen t ht))
    · rw [if_neg hx] at ht
      rcases List.mem_cons.mp ht with rfl | ht2
      · simp
      · exact List.mem_cons.mpr (Or.inr (ih (x :: seen) t ht2))

theorem dedupByLowerAux_subset : ∀ (l seen : List Str) (t : Str),
    t ∈ dedupByLowerAux seen l → t ∈ l := by
  intro l
  induction l with
  | nil => intro seen t ht; simp [dedupByLowerAux] at ht
  | cons x xs ih =>
    intro seen t ht
    rw [dedupByLowerAux] at ht
    by_cases hx : seen.contains (strLower x)
    · rw [if_pos hx] at ht
      exact List.mem_cons.mpr (Or.inr (ih seen t ht))
    · rw [if_neg hx] at ht
      rcases List.mem_cons.mp ht with rfl | ht2
      · simp
      · exact List.mem_cons.mpr (Or.inr (ih (strLower x :: seen) t ht2))

theorem dedupByLowerAux_pairwise : ∀ (l seen : List Str),
    (dedupByLowerAux seen l).Pairwise (fun a b => strLower a ≠ strLower b) ∧
      ∀ t ∈ dedupByLowerAux seen l, strLower t ∉ seen := by
  intro l
  induction l with
  | nil => intro seen; simp [dedupByLowerAux]
  | cons x xs ih =>
    intro seen
    rw [dedupByLowerAux]
    by_cases hx : seen.contains (strLower x)
    · rw [if_pos hx]; exact ih seen
    · rw [if_neg hx]
      obtain ⟨ihp, ihm⟩ := ih (strLower x :: seen)
      constructor
      · rw [List.pairwise_cons]
        refine ⟨?_, ihp⟩
        intro b hb hcontra
        exact ihm b hb (by rw [← hcontra]; simp)
      · intro t ht
        rcases List.mem_cons.mp ht with rfl | ht2
        · intro hc
          exact hx (by simp [List.contains, hc])
        · intro hc
          exact ihm t ht2 (by simp [hc])

theorem dedupByLower_pairwise (l : List Str) :
    (dedupByLower l).Pairwise (fun a b => strLower a ≠ strLower b) :=
  (dedupByLowerAux_pairwise l []).1

theorem strLower_filter_strLower (q : Char → Bool) : ∀ u : Str,
    strLower ((strLower u).filter q) = (strLower u).filter q := by
  intro u
  induction u with
  | nil => rfl
  | cons c cs ih =>
    by_cases hq : q (lowerChar c)
    · calc strLower ((strLower (c :: cs)).filter q)
          = strLower (lowerChar c :: (strLower cs).filter q) := by
            simp [strLower, List.filter_cons, hq]
        _ = lowerChar (lowerChar c) :: strLower ((strLower cs).filter q) := rfl
        _ = lowerChar c :: (strLower cs).filter q := by rw [lowerChar_idem, ih]
        _ = (strLower (c :: cs)).filter q := by simp [strLower, List.filter_cons, hq]
    · calc strLower ((strLower (c :: cs)).filter q)
          = strLower ((strLower cs).filter q) := by
            simp [strLower, List.filter_cons, hq]
        _ = (strLower cs).filter q := ih
        _ = (strLower (c :: cs)).filter q := by simp [strLower, List.filter_cons, hq]

theorem strLower_idem_of_lower (t : Str) (u : Str) (h : t = strLower u) :
    strLower t = t := by
  subst h; exact strLower_idem u

theorem extract_units_lower (t : Option Str) :
    ∀ u ∈ (extract_units_and_composed t).1, strLower u = u := by
  intro u hu
  cases t with
  | none => simp [extract_units_and_composed] at hu
  | some s0 =>
    simp only [extract_units_and_composed, dedupKeepFirst] at hu
    have hmem := dedupKeepFirstAux_subset _ [] u hu
    rcases List.mem_map.mp hmem with ⟨v, _, rfl⟩
    exact strLower_filter_strLower _ v

theorem extract_composed_lower (t : Option Str) :
    ∀ u ∈ (extract_units_and_composed t).2, strLower u = u := by
  intro u hu
  cases t with
  | none => simp [extract_units_and_composed] at hu
  | some s0 =>
    simp only [extract_units_and_composed, dedupKeepFirst] at hu
    have hmem := dedupKeepFirstAux_subset _ [] u hu
    rcases List.mem_map.mp hmem with ⟨v, _, rfl⟩
    exact strLower_filter_strLower _ v

theorem extract_qty_lower (t : Option Str) :
    ∀ u ∈ extract_qty_combos t, strLower u = u := by
  intro u hu
  cases t with
  | none => simp [extract_qty_combos] at hu
  | some s0 =>
    simp only [extract_qty_combos, dedupKeepFirst] at hu
    have hmem := dedupKeepFirstAux_subset _ [] u hu
    rcases List.mem_map.mp hmem with ⟨v, _, rfl⟩
    exact strLower_filter_strLower _ (xToX v)

theorem extract_paper_lower (t : Option Str) :
    ∀ u ∈ extract_paper_sizes t, strLower u = u := by
  intro u hu
  cases t with
  | none => simp [extract_paper_sizes] at hu
  | some s0 =>
    simp only [extract_paper_sizes] at hu
    rcases List.mem_map.mp hu with ⟨v, _, rfl⟩
    exact strLower_idem v

theorem extract_hy_pairwise (t : Option Str) :
    (extract_hy_codes t).Pairwise (fun a b => strLower a ≠ strLower b) := by
  cases t with
  | none => simp [extract_hy_codes]
  | some s => exact dedupByLower_pairwise _

theorem extract_alnum_pairwise (t : Option Str) :
    (extract_alnum_codes t).Pairwise (fun a b => strLower a ≠ strLower b) := by
  cases t with
  | none => simp [extract_alnum_codes]
  | some s => exact dedupByLower_pairwise _

theorem extract_paren_pairwise (t : Option Str) :
    (extract_parentheses t).Pairwise (fun a b => strLower a ≠ strLower b) := by
  cases t with
  | none => simp [extract_parentheses]
  | some s => exact dedupByLower_pairwise _

theorem extract_units_no_space (t : Option Str) :
    ∀ u ∈ (extract_units_and_composed t).1, ' ' ∉ u := by
  intro u hu hsp
  cases t with
  | none => simp [extract_units_and_composed] at hu
  | some s0 =>
    simp only [extract_units_and_composed, dedupKeepFirst] at hu
    have hmem := dedupKeepFirstAux_subset _ [] u hu
    rcases List.mem_map.mp hmem with ⟨v, _, rfl⟩
    have := List.of_mem_filter hsp
    simp at this

theorem extract_composed_no_ws (t : Option Str) :
    ∀ u ∈ (extract_units_and_composed t).2, ∀ c ∈ u, isPySpace c = false := by
  intro u hu c hc
  cases t with
  | none => simp [extract_units_and_composed] at hu
  | some s0 =>
    simp only [extract_units_and_composed, dedupKeepFirst] at hu
    have hmem := dedupKeepFirstAux_subset _ [] u hu
    rcases List.mem_map.mp hmem with ⟨v, _, rfl⟩
    have := List.of_mem_filter hc
    simpa using this

theorem extract_qty_no_ws (t : Option Str) :
    ∀ u ∈ extract_qty_combos t, ∀ c ∈ u, isPySpace c = false := by
  intro u hu c hc
  cases t with
  | none => simp [extract_qty_combos] at hu
  | some s0 =>
    simp only [extract_qty_combos, dedupKeepFirst] at hu
    have hmem := dedupKeepFirstAux_subset _ [] u hu
    rcases List.mem_map.mp hmem with ⟨v, _, rfl⟩
    have := List.of_mem_filter hc
    simpa using this

theorem extract_hy_verbatim (s : Str) :
    ∀ u ∈ extract_hy_codes (some s), u ∈ reFindAll HYCODE_at s := by
  intro u hu
  simp only [extract_hy_codes, dedupByLower] at hu
  exact dedupByLowerAux_subset _ [] u hu

theorem extract_alnum_verbatim (s : Str) :
    ∀ u ∈ extract_alnum_codes (some s), u ∈ reFindAll ALNUM_CODE_at s := by
  intro u hu
  simp only [extract_alnum_codes, dedupByLower] at hu
  exact dedupByLowerAux_subset _ [] u hu

theorem extract_paren_verbatim (s : Str) :
    ∀ u ∈ extract_parentheses (some s), u ∈ reFindAll PAREN_at s := by
  intro u hu
  simp only [extract_parentheses, dedupByLower] at hu
  exact dedupByLowerAux_subset _ [] u hu

/-! ## Auxiliary lemmas: brand resolution and the decimal guard -/

theorem run_brand_copy (r : Row) (b : Str) (h : r.brand_name = some b) :
    run_brand r = some b := by
  simp [run_brand, h]

theorem run_brand_resolve (r : Row) (h : r.brand_name = none) :
    run_brand r = extract_brand_from_rmark r.pdt_name_clean := by
  cases hnc : r.pdt_name_clean with
  | none => simp [run_brand, h, hnc, extract_brand_from_rmark]
  | some s =>
    by_cases hc : s.contains '®'
    · have hc2 : '®' ∈ s := by simpa [List.contains] using hc
      simp [run_brand, h, hnc, hc, hc2]
    · have hc2 : '®' ∉ s := by simpa [List.contains] using hc
      simp [run_brand, h, hnc, hc, hc2, extract_brand_from_rmark]

theorem extract_brand_no_mark (s : Str) (h : s.contains '®' = false) :
    extract_brand_from_rmark (some s) = none := by
  rw [extract_brand_from_rmark, if_pos (by rw [h]; rfl)]

theorem extract_brand_accepts (s t : Str)
    (h : extract_brand_from_rmark (some s) = some t) :
    2 ≤ t.length ∧ t.any (fun c => isAsciiAlpha c || isHangulSyl c) = true := by
  simp only [extract_brand_from_rmark] at h
  split_ifs at h <;> try cases h
  all_goals simp_all [Bool.and_eq_true]

/-! ## Claims -/

/-- C1 counterexample: on the record whose clean name is "1.5m a4" and whose
stored spec is empty, the pipeline yields the spec "1.5m/a4"; feeding that
output back as the stored spec yields "a4/1.5m" instead — the stale-unit
scrub removes the stored "1.5m" and the re-extracted unit token is appended
behind the surviving "a4", so `pipeline (pipeline record) ≠ pipeline record`
as strings (the token set is preserved but the order is not). -/
theorem c1_counterexample :
    build_spec (respec ⟨none, some ("1.5m a4".toList), none, none⟩) ≠
      build_spec ⟨none, some ("1.5m a4".toList), none, none⟩ := by
  decide

/-- C1 amended: provided no extracted token contains the delimiter '/'
(all extractors except the parenthetical one cannot produce it),
(a) a single `merge_specs` call is idempotent when fed its own output back
as the existing string, and (b) re-running the row pipeline with its own
output as the stored spec preserves the set of case-insensitively-compared
spec tokens — no token appears or disappears, though a re-extracted
bare-unit token may be reordered behind the surviving base tokens, so the
two spec strings may differ (see the counterexample). -/
theorem c1_amended :
    (∀ (e : Option Str) (parts : List Str), (∀ p ∈ parts, '/' ∉ p) →
      merge_specs (merge_specs e parts) parts = merge_specs e parts) ∧
    (∀ r : Row, (∀ cat ∈ cat_lists r, ∀ p ∈ cat, '/' ∉ p) →
      ∀ x : Str, x ∈ (pyBase (build_spec (respec r))).map strLower ↔
        x ∈ (pyBase (build_spec r)).map strLower) :=
  ⟨merge_specs_self_idem, respec_lower_mem⟩

/-- C1 amended witness at a concrete merge call and a concrete record. -/
theorem c1_amended_witness :
    merge_specs (merge_specs none [['a']]) [['a']] = merge_specs none [['a']] ∧
    (['a'] ∈ (pyBase (build_spec (respec ⟨none, none, none, none⟩))).map strLower ↔
      ['a'] ∈ (pyBase (build_spec (⟨none, none, none, none⟩ : Row))).map strLower) :=
  ⟨c1_amended.1 none [['a']] (by decide),
    c1_amended.2 ⟨none, none, none, none⟩ (by decide) ['a']⟩

/-- C2 counterexample: a record whose pre-existing spec is "kk/kk" and whose
name fields are missing passes through the pipeline unchanged, so the output
spec holds two tokens that are equal after lowercasing — the merger
de-duplicates only newly appended tokens, never the stored base. -/
theorem c2_counterexample :
    build_spec ⟨none, none, some ("kk/kk".toList), none⟩ =
        some ("kk/kk".toList) ∧
    ¬ (pyBase (build_spec ⟨none, none, some ("kk/kk".toList), none⟩)).Pairwise
        (fun a b => strLower a ≠ strLower b) := by
  constructor
  · decide
  · decide

/-- C2 amended: when no extracted token contains the delimiter '/' and the
trimmed tokens of the pre-existing spec are already pairwise distinct under
lowercasing, the output spec tokens are pairwise distinct under lowercasing;
moreover the output token list always begins with the scrubbed trimmed base
tokens in order, with the newly merged tokens appended behind them (first
occurrence wins its position). -/
theorem c2_amended :
    ∀ r : Row, (∀ cat ∈ cat_lists r, ∀ p ∈ cat, '/' ∉ p) →
      ((spec_base_tokens r).map pyStrip).Pairwise
        (fun a b => strLower a ≠ strLower b) →
      (pyBase (build_spec r)).Pairwise (fun a b => strLower a ≠ strLower b) ∧
      ∃ app, pyBase (build_spec r) = (spec_base_scrubbed r).map pyStrip ++ app :=
  fun r hsl hpw => ⟨build_spec_pairwise r hsl hpw, build_spec_frame r hsl⟩

/-- C2 amended witness at a concrete record. -/
theorem c2_amended_witness :
    (pyBase (build_spec ⟨none, none, some ("a/b".toList), none⟩)).Pairwise
      (fun a b => strLower a ≠ strLower b) :=
  (c2_amended ⟨none, none, some ("a/b".toList), none⟩ (by decide) (by decide)).1

/-- C3: the unit extractor applies the decimal-vs-integer guard: the input
"1.5m 가방" yields exactly the unit token "1.5m" and in particular not "5m";
in general the integer-unit matchers (`M_INT`, `CM_INT`, `MM_INT`) never
match at a position immediately preceded by a decimal point. -/
theorem c3_decimal_guard :
    ((extract_units_and_composed (some ("1.5m 가방".toList))).1 =
        ["1.5m".toList] ∧
      "5m".toList ∉ (extract_units_and_composed (some ("1.5m 가방".toList))).1) ∧
    ∀ (suf pre s : Str) (n : Nat), intUnitAt suf pre s = some n →
      pre.head? ≠ some '.' := by
  refine ⟨⟨by decide, by decide⟩, ?_⟩
  intro suf pre s n hmatch hdot
  rw [intUnitAt, if_pos hdot] at hmatch
  cases hmatch

/-- C3 witness: the integer matcher does match "5m" at the start of the
text (no preceding decimal point. -/
theorem c3_decimal_guard_witness : ([] : Str).head? ≠ some '.' :=
  c3_decimal_guard.2 ['m'] [] ("5m".toList) 2 (by decide)

/-- C4: the hyphen-code pattern `HYCODE` requires BOTH a letter and a digit
inside the leading alphanumeric segment (its lookaheads cannot cross `-` or
`_`), so the input "clt-p407c" — whose first segment "clt" has no digit —
yields NO hyphen-code token, contradicting the claim and the source's own
docstring example; the compact alnum extractor captures "p407c" instead. -/
theorem c4_hycode_divergence :
    extract_hy_codes (some ("clt-p407c".toList)) = [] ∧
    extract_alnum_codes (some ("clt-p407c".toList)) = ["p407c".toList] := by
  constructor
  · decide
  · decide

/-- C5 counterexample: the hyphen-code extractor preserves the original
case of its matches ("A1-B2" stays "A1-B2"), so its tokens are not
lowercased as the claim states. -/
theorem c5_counterexample :
    extract_hy_codes (some ("A1-B2".toList)) = ["A1-B2".toList] ∧
    strLower ("A1-B2".toList) ≠ "A1-B2".toList := by
  constructor
  · decide
  · decide

/-- C5 amended: the hyphen and compact-alnum code extractors (and the
parenthetical extractor) return their pattern matches verbatim — original
case preserved — de-duplicated case-insensitively within the single call,
first occurrence kept; the unit, composed-dimension, paper-size and
quantity extractors return lower-case-invariant tokens; composed and
quantity tokens additionally have ALL whitespace removed, while the unit
extractor removes only the space character, so a tab inside a unit match
survives (the input "1.5\tm" yields the unit token "1.5\tm"); the
paper-size extractor performs no per-call dedup (the merger resolves
duplicates). -/
theorem c5_amended :
    (∀ s : Str,
      (∀ u ∈ extract_hy_codes (some s), u ∈ reFindAll HYCODE_at s) ∧
      (∀ u ∈ extract_alnum_codes (some s), u ∈ reFindAll ALNUM_CODE_at s) ∧
      (∀ u ∈ extract_parentheses (some s), u ∈ reFindAll PAREN_at s)) ∧
    (∀ t : Option Str,
      (extract_hy_codes t).Pairwise (fun a b => strLower a ≠ strLower b) ∧
      (extract_alnum_codes t).Pairwise (fun a b => strLower a ≠ strLower b) ∧
      (extract_parentheses t).Pairwise (fun a b => strLower a ≠ strLower b) ∧
      (∀ u ∈ (extract_units_and_composed t).1, strLower u = u ∧ ' ' ∉ u) ∧
      (∀ u ∈ (extract_units_and_composed t).2,
        strLower u = u ∧ ∀ c ∈ u, isPySpace c = false) ∧
      (∀ u ∈ extract_paper_sizes t, strLower u = u) ∧
      (∀ u ∈ extract_qty_combos t,
        strLower u = u ∧ ∀ c ∈ u, isPySpace c = false)) ∧
    (extract_units_and_composed (some ("1.5\tm".toList))).1 =
      ["1.5\tm".toList] := by
  refine ⟨fun s => ⟨extract_hy_verbatim s, extract_alnum_verbatim s,
      extract_paren_verbatim s⟩,
    fun t => ⟨extract_hy_pairwise t, extract_alnum_pairwise t,
      extract_paren_pairwise t,
      fun u hu => ⟨extract_units_lower t u hu, extract_units_no_space t u hu⟩,
      fun u hu => ⟨extract_composed_lower t u hu, extract_composed_no_ws t u hu⟩,
      extract_paper_lower t,
      fun u hu => ⟨extract_qty_lower t u hu, extract_qty_no_ws t u hu⟩⟩,
    ?_⟩
  decide

/-- C5 amended witness: on "A1-B2" the hyphen token is a verbatim pattern
match, and the extracted unit token of "1.5M 가방" is lower-case invariant
and free of space characters. -/
theorem c5_amended_witness :
    ("A1-B2".toList ∈ reFindAll HYCODE_at ("A1-B2".toList)) ∧
    (strLower ("1.5m".toList) = "1.5m".toList ∧ ' ' ∉ "1.5m".toList) :=
  ⟨(c5_amended.1 ("A1-B2".toList)).1 ("A1-B2".toList) (by decide),
    (c5_amended.2.1 (some ("1.5M 가방".toList))).2.2.2.1 ("1.5m".toList)
      (by decide)⟩

/-- C6: before merging re-extracted unit tokens, every base token of the
pre-existing spec whose stripped form matches the bare-unit pattern
`UNIT_TOKEN_TO_DROP` is removed (the scrubbed base never contains one); in
particular the record with stored spec "5m" and clean name "1.5m 가방" ends
with the spec "1.5m" — the stale "5m" is gone, the corrected "1.5m" is in. -/
theorem c6_stale_scrub :
    (∀ r : Row, ∀ t ∈ spec_base_scrubbed r, dropMatch (pyStrip t) = false) ∧
    build_spec ⟨none, some ("1.5m 가방".toList), some ("5m".toList), none⟩ =
      some ("1.5m".toList) := by
  constructor
  · intro r t ht
    exact (spec_base_scrubbed_good r t ht).2
  · decide

/-- C6 witness: a non-unit base token survives the scrub with the
guarantee instantiated on it. -/
theorem c6_stale_scrub_witness :
    dropMatch (pyStrip ("a1".toList)) = false :=
  c6_stale_scrub.1 ⟨none, none, some ("a1".toList), none⟩ ("a1".toList) (by decide)

/-- C7 counterexample: with existing brand `Some ""` (present but empty)
and a clean name carrying the ® marker, the code keeps the empty brand
(`pd.isna` is false on an empty string) whereas the claim's "non-empty"
reading would apply the resolver, which yields "ACME" here. -/
theorem c7_counterexample :
    run_brand ⟨none, some ("ACME®X".toList), none, some []⟩ = some [] ∧
    extract_brand_from_rmark (some ("ACME®X".toList)) =
      some ("ACME".toList) := by
  constructor
  · decide
  · decide

/-- C7 amended: the output brand equals existing_brand whenever that field
is PRESENT (non-null — an empty string counts as present and is kept), and
the marker resolver is applied to name_clean exactly when it is missing;
the resolver yields nothing when the text has no ® marker, every token it
accepts has at least 2 characters and contains a Latin or Hangul letter,
and on the spec's examples it returns the token immediately preceding the
marker (the whole pre-marker text when that prefix has no internal space). -/
theorem c7_amended :
    (∀ (r : Row) (b : Str), r.brand_name = some b → run_brand r = some b) ∧
    (∀ r : Row, r.brand_name = none →
      run_brand r = extract_brand_from_rmark r.pdt_name_clean) ∧
    (∀ s : Str, s.contains '®' = false →
      extract_brand_from_rmark (some s) = none) ∧
    (∀ s t : Str, extract_brand_from_rmark (some s) = some t →
      2 ≤ t.length ∧ t.any (fun c => isAsciiAlpha c || isHangulSyl c) = true) ∧
    extract_brand_from_rmark (some ("ACME®볼펜".toList)) =
      some ("ACME".toList) ∧
    extract_brand_from_rmark (some ("Global ACME ® 볼펜".toList)) =
      some ("ACME".toList) := by
  refine ⟨run_brand_copy, run_brand_resolve, extract_brand_no_mark,
    extract_brand_accepts, ?_, ?_⟩
  · decide
  · decide

/-- C7 amended witness at a concrete record with a present brand. -/
theorem c7_amended_witness :
    run_brand ⟨none, none, none, some ("b1".toList)⟩ = some ("b1".toList) :=
  c7_amended.1 ⟨none, none, none, some ("b1".toList)⟩ ("b1".toList) (by decide)

/-- C8: every extractor returns the empty token list on a missing (None)
or empty text, and the brand resolver returns no value there; in this total
shallow embedding each of these functions is defined on every input, which
is the embedded form of "per-record extraction never raises". -/
theorem c8_null_empty_safe :
    extract_units_and_composed none = ([], []) ∧
    extract_units_and_composed (some []) = ([], []) ∧
    extract_paper_sizes none = [] ∧ extract_paper_sizes (some []) = [] ∧
    extract_qty_combos none = [] ∧ extract_qty_combos (some []) = [] ∧
    extract_hy_codes none = [] ∧ extract_hy_codes (some []) = [] ∧
    extract_alnum_codes none = [] ∧ extract_alnum_codes (some []) = [] ∧
    extract_parentheses none = [] ∧ extract_parentheses (some []) = [] ∧
    extract_brand_from_rmark none = none ∧
    extract_brand_from_rmark (some []) = none := by
  decide

/-- C9: the merged output token list always begins with exactly the trimmed
non-blank segments of the existing string in their original order — merging
only appends at the end, never removing, rewriting, or reordering the base —
and the call returns a missing value exactly when the resulting token list
is empty; the segments of the returned joined string likewise start with the
base segments. -/
theorem c9_merge_frame :
    ∀ (e : Option Str) (parts : List Str),
      (∃ app, mergeLoop (pyBase e) parts = pyBase e ++ app) ∧
      (merge_specs e parts = none ↔ mergeLoop (pyBase e) parts = []) ∧
      (∀ s : Str, merge_specs e parts = some s →
        ∃ rest, splitOnChar '/' s = pyBase e ++ rest) := by
  intro e parts
  refine ⟨mergeLoop_append_ex parts (pyBase e), ?_, ?_⟩
  · by_cases hL : mergeLoop (pyBase e) parts = []
    · simp [merge_specs, optOfTokens, hL]
    · simp [merge_specs, optOfTokens, hL]
  · intro s hs
    rw [merge_specs, optOfTokens] at hs
    by_cases hL : mergeLoop (pyBase e) parts = []
    · rw [if_pos hL] at hs; cases hs
    · rw [if_neg hL] at hs
      have hsj : s = joinSlash (mergeLoop (pyBase e) parts) := by
        injection hs with h2; exact h2.symm
      obtain ⟨app, happ⟩ := mergeLoop_append_ex parts (pyBase e)
      subst hsj
      rw [happ]
      by_cases happ_nil : app = []
      · subst happ_nil
        rw [List.append_nil]
        by_cases hbase : pyBase e = []
        · exact absurd (by rw [happ, hbase]; rfl) hL
        · refine ⟨[], ?_⟩
          rw [List.append_nil]
          exact splitOnChar_joinSlash (pyBase e) hbase
            (fun t ht => (pyBase_good e t ht).2.2)
      · by_cases hbase : pyBase e = []
        · refine ⟨splitOnChar '/' (joinSlash app), ?_⟩
          rw [hbase]
          simp
        · refine ⟨splitOnChar '/' (joinSlash app), ?_⟩
          exact splitOnChar_joinSlash_append (pyBase e) app
            (fun t ht => (pyBase_good e t ht).2.2) happ_nil

/-- C9 witness: merging "b" into existing "a" returns "a/b", whose segment
list starts with the base segment "a". -/
theorem c9_merge_frame_witness :
    ∃ rest, splitOnChar '/' ("a/b".toList) =
      pyBase (some ("a".toList)) ++ rest :=
  (c9_merge_frame (some ("a".toList)) ["b".toList]).2.2 ("a/b".toList) (by decide)

/-- C10: the stale-unit scrub is unconditional: whenever every base token of
the stored spec is a bare unit quantity, a record with missing name fields
(so that no extractor produces any token) ends the pipeline with a missing
spec; in particular the record whose stored spec is exactly "5m" and whose
name fields are missing ends with no spec at all. -/
theorem c10_unconditional_scrub :
    (∀ s : Str, (∀ t ∈ spec_base_tokens ⟨none, none, some s, none⟩,
        dropMatch (pyStrip t) = true) →
      build_spec ⟨none, none, some s, none⟩ = none) ∧
    build_spec ⟨none, none, some ("5m".toList), none⟩ = none := by
  constructor
  · intro s hall
    have h2 : spec_base_scrubbed ⟨none, none, some s, none⟩ = [] := by
      apply List.filter_eq_nil_iff.mpr
      intro t ht
      simp [hall t ht]
    show List.foldl merge_specs
      (optOfTokens (spec_base_scrubbed ⟨none, none, some s, none⟩))
      (cat_lists ⟨none, none, some s, none⟩) = none
    rw [h2]
    rfl
  · decide

/-- C10 witness: instantiated on the stored spec "5m". -/
theorem c10_unconditional_scrub_witness :
    build_spec ⟨none, none, some ("5m".toList), none⟩ = none :=
  c10_unconditional_scrub.1 ("5m".toList) (by decide)
